import Mathlib

set_option linter.unusedSectionVars false

/-!
# Verification of the concurrent hash table core
  (`src/project/hashtable/threaded_hash_table.py`)

This file gives a shallow sequential embedding of the two hash-table classes
`ThreadSafeHashTable` and `NonThreadSafeHashTable`, and proves/refutes the
frozen claims about them.

Modelling conventions:
* Python `int` is `ℤ` (the entry counter `_size` can in principle go negative,
  so it is `ℤ`, not `ℕ`); the capacity is `ℕ` since it is only ever a validated
  positive value that is doubled.
* Python `float` load factors and the load-factor comparison
  `self._size / self._capacity > self._load_factor` are modelled over `ℚ`
  (exact arithmetic; for the power-of-two capacities of the claims the float
  computation is also exact).
* A `DoublyLinkedList` of `Node`s is modelled as a `List (K × V)` in
  head-to-tail order: `append` is `· ++ [(k, v)]`, `find` is the first match
  from the head, `remove` of a found node is removal of the first match.
  The bucket nodes and the `_keys_list` nodes are distinct Python objects,
  so buckets and the keys list are independent fields that the operations
  must keep in sync, exactly as in the source.
* The Python `hash` function is an explicit parameter `hf : K → ℤ`;
  `hash(key) % self._capacity` is `Int.emod`, which agrees with Python `%`
  for a positive modulus.
* Locks are invisible to the sequential state semantics (all locks are
  reentrant and every operation releases what it acquired), but the ORDER of
  lock acquisitions is modelled separately by trace functions, mirroring the
  `with`-statements of the source line by line.
* The mutual recursion `__setitem__` → `_check_resize` → `_resize` →
  `__setitem__` is not structurally terminating, so the embedding uses a fuel
  parameter and returns `none` when the fuel is exhausted; theorems are
  stated for every execution that terminates (`= some t'`), and witnesses
  show concrete fuels that suffice.
-/

/-- The mutable state of a hash table object (either class): `_capacity`,
`_load_factor`, `_buckets`, `_size` and `_keys_list`.  The `_bucket_locks`
list and the `_global_lock` carry no sequential state. -/
structure HashTableState (K V : Type) where
  capacity : ℕ
  loadFactor : ℚ
  buckets : List (List (K × V))
  size : ℤ
  keysList : List (K × V)
  deriving DecidableEq

variable {K V : Type} [DecidableEq K] [DecidableEq V]

/-- `_hash`: `hash(key) % self._capacity` (Python `%` on a positive modulus is
`Int.emod`, whose result is non-negative). -/
def bucketIdx (hf : K → ℤ) (cap : ℕ) (k : K) : ℕ :=
  ((hf k) % (cap : ℤ)).toNat

/-- `DoublyLinkedList.find`: scan from the head, return the first node whose
key equals `k`. -/
def findNode (l : List (K × V)) (k : K) : Option (K × V) :=
  l.find? fun p => decide (p.1 = k)

/-- The value-update scan of `__setitem__` (both on the bucket node and on the
`_keys_list` node): walk from the head, overwrite the value of the first node
whose key matches, then stop.  If no node matches, nothing changes. -/
def updateFirst : List (K × V) → K → V → List (K × V)
  | [], _, _ => []
  | p :: rest, k, v =>
    if p.1 = k then (p.1, v) :: rest else p :: updateFirst rest k v

/-- `DoublyLinkedList.remove` of the node returned by a `find` scan: remove
the first node whose key matches; if none matches, nothing changes (this is
also the `__delitem__` scan over `_keys_list`, which breaks after the first
hit and removes nothing when there is no hit). -/
def removeFirst (l : List (K × V)) (k : K) : List (K × V) :=
  l.eraseP fun p => decide (p.1 = k)

/-- The load-factor test `self._size / self._capacity > self._load_factor`
of `_check_resize` (and, negated, the re-check in `_resize`).  The exact
rational `Rat.divInt t.size t.capacity` is the quotient
`(t.size : ℚ) / (t.capacity : ℚ)` (see `loadExceeded_eq_div` below); it is
used directly so that the test evaluates inside the kernel. -/
def loadExceeded (t : HashTableState K V) : Bool :=
  decide (Rat.divInt t.size (t.capacity : ℤ) > t.loadFactor)

/-- `__setitem__` of both classes (`ThreadSafeHashTable` lines 162-189 and
`NonThreadSafeHashTable` lines 339-356 have the same sequential effect; the
thread-safe class runs `_check_resize` after releasing the bucket lock, the
other one inside the `else` branch, in both cases only when the key was new):
resolve the bucket, look for the key; if present overwrite the bucket node's
value and the value of the first matching `_keys_list` node; otherwise append
`(k, v)` to the bucket and to `_keys_list`, increment `_size`, and run
`_check_resize`.  The `_resize` entry point is a parameter so that each class
can plug in its own resize. -/
def setItemCore (hf : K → ℤ)
    (resizeFn : HashTableState K V → ℕ → Option (HashTableState K V))
    (t : HashTableState K V) (k : K) (v : V) : Option (HashTableState K V) :=
  let i := bucketIdx hf t.capacity k
  let bucket := t.buckets.getD i []
  match findNode bucket k with
  | some _ =>
      some { t with
        buckets := t.buckets.set i (updateFirst bucket k v),
        keysList := updateFirst t.keysList k v }
  | none =>
      let t1 : HashTableState K V :=
        { t with
          buckets := t.buckets.set i (bucket ++ [(k, v)]),
          keysList := t.keysList ++ [(k, v)],
          size := t.size + 1 }
      if loadExceeded t1 then resizeFn t1 (t1.capacity * 2) else some t1

/-- The scan of `_resize`'s rehashing loop body: `for bucket in old_buckets:
node = bucket.find(key); if node: ...; break` — the first node with the given
key found while walking the old buckets in order. -/
def findInBuckets (buckets : List (List (K × V))) (k : K) : Option (K × V) :=
  buckets.findSome? fun b => findNode b k

/-- The rehashing loop of `_resize` (both classes): for each key of the old
keys list, look it up in the old buckets and re-insert it through
`__setitem__` (`self[key] = node.value`); a key found in no old bucket is
skipped. -/
def reinsertLoopCore
    (setFn : HashTableState K V → K → V → Option (HashTableState K V))
    (oldBuckets : List (List (K × V))) :
    List K → HashTableState K V → Option (HashTableState K V)
  | [], t => some t
  | k :: rest, t =>
      match findInBuckets oldBuckets k with
      | some p => (setFn t k p.2).bind (reinsertLoopCore setFn oldBuckets rest)
      | none => reinsertLoopCore setFn oldBuckets rest t

namespace ThreadSafeHashTable

/-- `ThreadSafeHashTable._resize` (lines 119-155): under the global lock,
re-check the load factor and abort if it is no longer exceeded; otherwise
remember the old buckets, install a fresh bucket array of the new capacity,
zero `_size`, snapshot the old `_keys_list` and reset it, then rehash every
old key in insertion order through `__setitem__`.  The recursion through the
inner `__setitem__` is paid for by one unit of fuel per `_resize` frame. -/
def resizeFuel (hf : K → ℤ) :
    ℕ → HashTableState K V → ℕ → Option (HashTableState K V)
  | 0, _, _ => none
  | fuel + 1, t, newCapacity =>
      if loadExceeded t then
        let oldBuckets := t.buckets
        let t1 : HashTableState K V :=
          { t with
            capacity := newCapacity,
            buckets := List.replicate newCapacity [],
            size := 0,
            keysList := [] }
        reinsertLoopCore (setItemCore hf (resizeFuel hf fuel)) oldBuckets
          (t.keysList.map Prod.fst) t1
      else some t

/-- `ThreadSafeHashTable.__setitem__` with the class's `_resize`. -/
def setItemFuel (hf : K → ℤ) (fuel : ℕ) (t : HashTableState K V) (k : K)
    (v : V) : Option (HashTableState K V) :=
  setItemCore hf (resizeFuel hf fuel) t k v

end ThreadSafeHashTable

/-- The error raised by `__getitem__`/`__delitem__` on an absent key
(`raise KeyError(key)`); the spec calls it `KeyNotFound`. -/
inductive TableError
  | keyNotFound
  deriving DecidableEq

/-- The error raised by the `ThreadSafeHashTable` constructor on bad
arguments (`ValueError`); the spec calls it `InvalidConfiguration`. -/
inductive ConfigError
  | invalidConfiguration
  deriving DecidableEq

/-- `__getitem__` (identical in both classes): resolve the bucket, find the
key; raise `KeyError` if absent, else return the node's value. -/
def getItem (hf : K → ℤ) (t : HashTableState K V) (k : K) :
    Except TableError V :=
  let bucket := t.buckets.getD (bucketIdx hf t.capacity k) []
  match findNode bucket k with
  | none => .error .keyNotFound
  | some p => .ok p.2

/-- `get(key, default)`: `try: return self[key] except KeyError: return
default` (explicit in `ThreadSafeHashTable`, inherited with the same meaning
by `NonThreadSafeHashTable`). -/
def getDefault (hf : K → ℤ) (t : HashTableState K V) (k : K) (d : V) : V :=
  match getItem hf t k with
  | .ok v => v
  | .error _ => d

/-- `__delitem__` (identical in both classes): resolve the bucket, find the
key; raise `KeyError` if absent; otherwise remove the node from the bucket,
remove the first matching node from `_keys_list`, and decrement `_size`
(the decrement is unconditional once the bucket node was found). -/
def delItem (hf : K → ℤ) (t : HashTableState K V) (k : K) :
    Except TableError (HashTableState K V) :=
  let i := bucketIdx hf t.capacity k
  let bucket := t.buckets.getD i []
  match findNode bucket k with
  | none => .error .keyNotFound
  | some _ =>
      .ok { t with
        buckets := t.buckets.set i (removeFirst bucket k),
        keysList := removeFirst t.keysList k,
        size := t.size - 1 }

/-- `__contains__` (identical in both classes): bucket-local find. -/
def containsKey (hf : K → ℤ) (t : HashTableState K V) (k : K) : Bool :=
  (findNode (t.buckets.getD (bucketIdx hf t.capacity k) []) k).isSome

/-- `__len__`: return `_size`. -/
def lenTable (t : HashTableState K V) : ℤ :=
  t.size

/-- `__iter__` / `keys()`: the keys of `_keys_list` from head to tail
(insertion order). -/
def iterKeys (t : HashTableState K V) : List K :=
  t.keysList.map Prod.fst

/-- `values()`: the values of `_keys_list` from head to tail. -/
def valuesList (t : HashTableState K V) : List V :=
  t.keysList.map Prod.snd

/-- `items()`: the pairs of `_keys_list` from head to tail. -/
def itemsList (t : HashTableState K V) : List (K × V) :=
  t.keysList

/-- The freshly constructed state shared by both constructors: `capacity`
buckets, all empty, `_size = 0`, empty `_keys_list`. -/
def mkEmptyState (cap : ℕ) (lf : ℚ) : HashTableState K V :=
  { capacity := cap
    loadFactor := lf
    buckets := List.replicate cap []
    size := 0
    keysList := [] }

namespace ThreadSafeHashTable

/-- `ThreadSafeHashTable.__init__` (lines 97-109): reject a non-positive
initial capacity and a load factor outside `(0, 1]` with `ValueError`
(spec: `InvalidConfiguration`); otherwise build the empty state.  The
arguments are typed `ℤ`/`ℚ`: the dynamic-typing failure mode of passing a
non-integer capacity (a `TypeError` out of `range`) is outside this typed
model. -/
def initTable (initialCapacity : ℤ) (loadFactor : ℚ) :
    Except ConfigError (HashTableState K V) :=
  if initialCapacity ≤ 0 then .error .invalidConfiguration
  else if ¬(0 < loadFactor ∧ loadFactor ≤ 1) then .error .invalidConfiguration
  else .ok (mkEmptyState initialCapacity.toNat loadFactor)

end ThreadSafeHashTable

namespace NonThreadSafeHashTable

/-- `NonThreadSafeHashTable._resize` (lines 319-333): same rehashing loop as
the thread-safe class but WITHOUT the load-factor re-check (it resizes
unconditionally when called). -/
def resizeFuel (hf : K → ℤ) :
    ℕ → HashTableState K V → ℕ → Option (HashTableState K V)
  | 0, _, _ => none
  | fuel + 1, t, newCapacity =>
      let oldBuckets := t.buckets
      let t1 : HashTableState K V :=
        { t with
          capacity := newCapacity,
          buckets := List.replicate newCapacity [],
          size := 0,
          keysList := [] }
      reinsertLoopCore (setItemCore hf (resizeFuel hf fuel)) oldBuckets
        (t.keysList.map Prod.fst) t1

/-- `NonThreadSafeHashTable.__setitem__` with the class's `_resize`. -/
def setItemFuel (hf : K → ℤ) (fuel : ℕ) (t : HashTableState K V) (k : K)
    (v : V) : Option (HashTableState K V) :=
  setItemCore hf (resizeFuel hf fuel) t k v

/-- `NonThreadSafeHashTable.__init__` (lines 309-314): no validation at all;
the state is built from the arguments as given.  (For a non-positive
capacity Python would build a degenerate object with an empty bucket list;
the claims only concern valid construction arguments, which is the regime
this `ℤ → ℕ` model represents faithfully.) -/
def initTable (initialCapacity : ℤ) (loadFactor : ℚ) : HashTableState K V :=
  mkEmptyState initialCapacity.toNat loadFactor

end NonThreadSafeHashTable

/-! ## The well-formedness invariant

Every state reachable from a valid construction satisfies `WF`: the capacity
is positive, bucket `i` holds exactly the entries of `_keys_list` that hash
to `i` (in `_keys_list` order — appends go to the tail of both structures and
a resize rebuilds each bucket by walking `_keys_list` in order), the keys are
pairwise distinct, and `_size` is the length of `_keys_list`. -/

/-- The bucket array determined by a capacity and a keys list: bucket `i`
holds, in order, the pairs whose key hashes to `i`. -/
def bucketsOf (hf : K → ℤ) (cap : ℕ) (l : List (K × V)) :
    List (List (K × V)) :=
  (List.range cap).map fun i => l.filter fun p => decide (bucketIdx hf cap p.1 = i)

/-- Well-formedness of a table state (true of every reachable state). -/
def WF (hf : K → ℤ) (t : HashTableState K V) : Prop :=
  0 < t.capacity ∧
  t.buckets = bucketsOf hf t.capacity t.keysList ∧
  (t.keysList.map Prod.fst).Nodup ∧
  t.size = (t.keysList.length : ℤ)

instance decidableWF (hf : K → ℤ) (t : HashTableState K V) :
    Decidable (WF hf t) := by
  unfold WF
  infer_instance

/-! ## The specification-level ordered map

Modelled from the spec: the Global Order Index is "a single ordered sequence
spanning all entries in insertion order"; `set` of a present key mutates the
value in place (no relink), `set` of a fresh key appends at the tail, and
`delete` unlinks the entry.  An association list with exactly these three
operations is the reference model; the implementation refines it (its
`_keys_list` IS this list, which is what the refinement lemmas prove). -/

/-- Effect of one `set(k, v)` on the spec-level ordered map. -/
def specSet (l : List (K × V)) (k : K) (v : V) : List (K × V) :=
  match findNode l k with
  | some _ => updateFirst l k v
  | none => l ++ [(k, v)]

/-- A single public operation of the map API. -/
inductive Op (K V : Type) where
  | set (k : K) (v : V)
  | del (k : K)
  | getIdx (k : K)
  | getD (k : K) (d : V)
  | hasKey (k : K)
  | lenOp
  | iterOp
  deriving DecidableEq

/-- Effect of one operation on the spec-level ordered map (reads change
nothing; a delete of an absent key raises and changes nothing, and
`removeFirst` of an absent key is the identity). -/
def specStep (l : List (K × V)) : Op K V → List (K × V)
  | .set k v => specSet l k v
  | .del k => removeFirst l k
  | _ => l

/-- Effect of an operation sequence on the spec-level ordered map. -/
def specRun (ops : List (Op K V)) (l : List (K × V)) : List (K × V) :=
  ops.foldl specStep l

/-- The observable outcome of one operation: normal return, `KeyError`,
a value, a boolean, the length, or the key sequence of an iteration. -/
inductive Obs (K V : Type) where
  | ret
  | keyErr
  | val (v : V)
  | boolRes (b : Bool)
  | intRes (n : ℤ)
  | keyList (ks : List K)
  deriving DecidableEq

/-- One step of a single-threaded driver, parameterised by the `__setitem__`
of the class under test (everything else is shared by both classes).  A
`KeyError` raised by `__delitem__` or `__getitem__` is caught by the driver
and recorded; it leaves the state unchanged (the source raises before any
mutation). -/
def stepWithSet
    (setFn : HashTableState K V → K → V → Option (HashTableState K V))
    (hf : K → ℤ) (t : HashTableState K V) :
    Op K V → Option (HashTableState K V × Obs K V)
  | .set k v => (setFn t k v).map fun t' => (t', .ret)
  | .del k =>
      match delItem hf t k with
      | .ok t' => some (t', .ret)
      | .error _ => some (t, .keyErr)
  | .getIdx k =>
      match getItem hf t k with
      | .ok v => some (t, .val v)
      | .error _ => some (t, .keyErr)
  | .getD k d => some (t, .val (getDefault hf t k d))
  | .hasKey k => some (t, .boolRes (containsKey hf t k))
  | .lenOp => some (t, .intRes (lenTable t))
  | .iterOp => some (t, .keyList (iterKeys t))

/-- Run a sequence of operations, collecting the observations. -/
def runWithSet
    (setFn : HashTableState K V → K → V → Option (HashTableState K V))
    (hf : K → ℤ) :
    List (Op K V) → HashTableState K V →
      Option (HashTableState K V × List (Obs K V))
  | [], t => some (t, [])
  | op :: rest, t =>
      match stepWithSet setFn hf t op with
      | some (t1, o) =>
          match runWithSet setFn hf rest t1 with
          | some (t2, os) => some (t2, o :: os)
          | none => none
      | none => none

/-- A run of the `ThreadSafeHashTable` (single-threaded). -/
def runOpsTS (hf : K → ℤ) (fuel : ℕ) (ops : List (Op K V))
    (t : HashTableState K V) :
    Option (HashTableState K V × List (Obs K V)) :=
  runWithSet (ThreadSafeHashTable.setItemFuel hf fuel) hf ops t

/-- A run of the `NonThreadSafeHashTable`. -/
def runOpsNTS (hf : K → ℤ) (fuel : ℕ) (ops : List (Op K V))
    (t : HashTableState K V) :
    Option (HashTableState K V × List (Obs K V)) :=
  runWithSet (NonThreadSafeHashTable.setItemFuel hf fuel) hf ops t

/-! ## Lock-acquisition traces

The claims about the locking discipline concern the ORDER in which the
table-wide lock (`self._global_lock`) and the per-bucket locks
(`self._bucket_locks[i]`) are acquired.  The functions below replay the
operations recording every acquisition of those locks in program order,
mirroring the `with`-statements (and explicit `acquire` loops) of the
source.  Releases are not recorded — the claims only constrain acquisition
order.  Each `DoublyLinkedList` also owns a private `RLock` of its own;
those are neither the table-wide lock nor a bucket lock, so they fall
outside the claims and are not recorded.  Bucket locks are identified by
their index; a resize replaces the lock objects, which only ever merges
distinct locks into one label — harmless here since the refuted claim is
about an order violation that already occurs without any resize. -/

/-- An acquisition of the table-wide lock or of the bucket lock `i`. -/
inductive LockAcq where
  | global
  | bucket (i : ℕ)
  deriving DecidableEq

/-- Is this the acquisition of some bucket lock? -/
def isBucketAcq : LockAcq → Bool
  | .bucket _ => true
  | .global => false

/-- Claim C2's mandated discipline, as a predicate on one call's acquisition
trace: whenever the call acquires both the table-wide lock and at least one
bucket lock, no bucket lock is acquired before the first acquisition of the
table-wide lock. -/
def tableWideBeforeBucket (tr : List LockAcq) : Bool :=
  !(tr.contains LockAcq.global) ||
    !((tr.takeWhile fun a => decide (a ≠ LockAcq.global)).any isBucketAcq)

/-- `__setitem__` instrumented with lock acquisitions (lines 162-189): enter
`with bucket_lock`, find; on both branches enter `with self._global_lock`
while still holding the bucket lock; on the fresh-key branch run
`_check_resize` after leaving both `with` blocks. -/
def setItemAcqCore (hf : K → ℤ)
    (resizeAcqFn : HashTableState K V → ℕ →
      Option (HashTableState K V × List LockAcq))
    (t : HashTableState K V) (k : K) (v : V) :
    Option (HashTableState K V × List LockAcq) :=
  let i := bucketIdx hf t.capacity k
  let bucket := t.buckets.getD i []
  match findNode bucket k with
  | some _ =>
      some ({ t with
        buckets := t.buckets.set i (updateFirst bucket k v),
        keysList := updateFirst t.keysList k v },
        [.bucket i, .global])
  | none =>
      let t1 : HashTableState K V :=
        { t with
          buckets := t.buckets.set i (bucket ++ [(k, v)]),
          keysList := t.keysList ++ [(k, v)],
          size := t.size + 1 }
      if loadExceeded t1 then
        match resizeAcqFn t1 (t1.capacity * 2) with
        | some (t2, tr) => some (t2, [.bucket i, .global] ++ tr)
        | none => none
      else some (t1, [.bucket i, .global])

/-- The rehashing loop instrumented with the lock acquisitions of its inner
`self[key] = node.value` calls. -/
def reinsertLoopAcqCore
    (setAcqFn : HashTableState K V → K → V →
      Option (HashTableState K V × List LockAcq))
    (oldBuckets : List (List (K × V))) :
    List K → HashTableState K V →
      Option (HashTableState K V × List LockAcq)
  | [], t => some (t, [])
  | k :: rest, t =>
      match findInBuckets oldBuckets k with
      | some p =>
          match setAcqFn t k p.2 with
          | some (t1, tr1) =>
              match reinsertLoopAcqCore setAcqFn oldBuckets rest t1 with
              | some (t2, tr2) => some (t2, tr1 ++ tr2)
              | none => none
          | none => none
      | none => reinsertLoopAcqCore setAcqFn oldBuckets rest t

namespace ThreadSafeHashTable

/-- `_resize` instrumented with lock acquisitions (lines 119-155): acquire
the table-wide lock, re-check (aborting keeps only that acquisition), then
acquire every current bucket lock in ascending index order, then run the
rehash loop (whose inner `__setitem__` calls acquire the new bucket locks
and, reentrantly, the table-wide lock). -/
def resizeAcqFuel (hf : K → ℤ) :
    ℕ → HashTableState K V → ℕ →
      Option (HashTableState K V × List LockAcq)
  | 0, _, _ => none
  | fuel + 1, t, newCapacity =>
      if loadExceeded t then
        let oldBuckets := t.buckets
        let t1 : HashTableState K V :=
          { t with
            capacity := newCapacity,
            buckets := List.replicate newCapacity [],
            size := 0,
            keysList := [] }
        match
          reinsertLoopAcqCore (setItemAcqCore hf (resizeAcqFuel hf fuel))
            oldBuckets (t.keysList.map Prod.fst) t1 with
        | some (t2, tr) =>
            some (t2, .global :: ((List.range t.capacity).map LockAcq.bucket ++ tr))
        | none => none
      else some (t, [.global])

/-- `__setitem__` with lock acquisitions, tied to the class's `_resize`. -/
def setItemAcqFuel (hf : K → ℤ) (fuel : ℕ) (t : HashTableState K V) (k : K)
    (v : V) : Option (HashTableState K V × List LockAcq) :=
  setItemAcqCore hf (resizeAcqFuel hf fuel) t k v

end ThreadSafeHashTable

/-- `__delitem__`'s lock acquisitions (lines 210-231): the bucket lock; then,
only when the key was found, the table-wide lock. -/
def delItemAcqTrace (hf : K → ℤ) (t : HashTableState K V) (k : K) :
    List LockAcq :=
  let i := bucketIdx hf t.capacity k
  match findNode (t.buckets.getD i []) k with
  | none => [.bucket i]
  | some _ => [.bucket i, .global]

/-- `__getitem__`'s lock acquisitions (lines 191-201): only the bucket lock
(also the trace of `get`, lines 203-208, which adds no locking). -/
def getItemAcqTrace (hf : K → ℤ) (t : HashTableState K V) (k : K) :
    List LockAcq :=
  [.bucket (bucketIdx hf t.capacity k)]

/-- `__contains__`'s lock acquisitions (lines 233-240): only the bucket
lock. -/
def containsAcqTrace (hf : K → ℤ) (t : HashTableState K V) (k : K) :
    List LockAcq :=
  [.bucket (bucketIdx hf t.capacity k)]

/-- `__len__`'s lock acquisitions (lines 258-261): only the table-wide
lock. -/
def lenAcqTrace : List LockAcq :=
  [.global]

/-- Verification contract of one terminating `__setitem__` call on a
well-formed state: the result is well-formed, its `_keys_list` is the
spec-level `set`, the load factor is untouched, and the capacity has been
doubled zero or more times. -/
def SetContract (hf : K → ℤ) (t t' : HashTableState K V) (k : K) (v : V) :
    Prop :=
  WF hf t' ∧ t'.keysList = specSet t.keysList k v ∧
  t'.loadFactor = t.loadFactor ∧ ∃ j : ℕ, t'.capacity = t.capacity * 2 ^ j

/-- Verification contract of a `_resize(c)` entry point: on a well-formed
state whose load factor is exceeded, a terminating resize to a positive
capacity `c` preserves `_keys_list` (hence the whole observable map) and the
load factor, and yields capacity `c` times a further power of two (the
inner re-inserts can cascade). -/
def ResizeContract (hf : K → ℤ)
    (resizeFn : HashTableState K V → ℕ → Option (HashTableState K V)) :
    Prop :=
  ∀ u c u', WF hf u → 0 < c → loadExceeded u = true →
    resizeFn u c = some u' →
    WF hf u' ∧ u'.keysList = u.keysList ∧ u'.loadFactor = u.loadFactor ∧
    ∃ j : ℕ, u'.capacity = c * 2 ^ j

/-! ## Helper lemmas about the list primitives -/

/-- The load-factor test is exactly the rational division written in the
source (`self._size / self._capacity > self._load_factor`). -/
theorem loadExceeded_eq_div (t : HashTableState K V) :
    loadExceeded t = decide ((t.size : ℚ) / (t.capacity : ℚ) > t.loadFactor) := by
  simp [loadExceeded, Rat.divInt_eq_div]

theorem bucketIdx_lt (hf : K → ℤ) {cap : ℕ} (hcap : 0 < cap) (k : K) :
    bucketIdx hf cap k < cap := by
  have hne : (cap : ℤ) ≠ 0 := by exact_mod_cast hcap.ne'
  have h1 : 0 ≤ (hf k) % (cap : ℤ) := Int.emod_nonneg _ hne
  have h2 : (hf k) % (cap : ℤ) < (cap : ℤ) :=
    Int.emod_lt_of_pos _ (by exact_mod_cast hcap)
  unfold bucketIdx
  omega

theorem findNode_cons (p : K × V) (l : List (K × V)) (k : K) :
    findNode (p :: l) k = if p.1 = k then some p else findNode l k := by
  by_cases h : p.1 = k <;> simp [findNode, List.find?_cons, h]

@[simp]
theorem findNode_nil (k : K) : findNode ([] : List (K × V)) k = none := rfl

theorem findNode_append (l₁ l₂ : List (K × V)) (k : K) :
    findNode (l₁ ++ l₂) k = (findNode l₁ k).or (findNode l₂ k) := by
  simp [findNode, List.find?_append]

theorem findNode_eq_some {l : List (K × V)} {k : K} {p : K × V}
    (h : findNode l k = some p) : p ∈ l ∧ p.1 = k := by
  have h1 := List.find?_some h
  have h2 := List.mem_of_find?_eq_some h
  simp only [decide_eq_true_eq] at h1
  exact ⟨h2, h1⟩

theorem findNode_eq_none {l : List (K × V)} {k : K} :
    findNode l k = none ↔ k ∉ l.map Prod.fst := by
  constructor
  · intro h hk
    rcases List.mem_map.mp hk with ⟨p, hp, hpk⟩
    have := List.find?_eq_none.mp h p hp
    simp [hpk] at this
  · intro h
    apply List.find?_eq_none.mpr
    intro p hp
    simp only [decide_eq_true_eq]
    intro hpk
    exact h (List.mem_map.mpr ⟨p, hp, hpk⟩)

theorem findNode_isSome {l : List (K × V)} {k : K} :
    (findNode l k).isSome = true ↔ k ∈ l.map Prod.fst := by
  rcases h : findNode l k with _ | p
  · simpa [h] using (findNode_eq_none.mp h)
  · simp only [Option.isSome_some, true_iff]
    rcases findNode_eq_some h with ⟨hp, hpk⟩
    exact List.mem_map.mpr ⟨p, hp, hpk⟩

theorem findNode_of_mem_nodup {l : List (K × V)} {k : K} {v : V}
    (hnd : (l.map Prod.fst).Nodup) (hm : (k, v) ∈ l) :
    findNode l k = some (k, v) := by
  induction l with
  | nil => cases hm
  | cons p rest ih =>
      rcases List.mem_cons.mp hm with h | h
      · rw [← h, findNode_cons]
        simp
      · rw [List.map_cons] at hnd
        have hk : k ∈ rest.map Prod.fst := List.mem_map.mpr ⟨(k, v), h, rfl⟩
        have hp1 : p.1 ≠ k := by
          intro hpk
          exact (List.nodup_cons.mp hnd).1 (hpk ▸ hk)
        rw [findNode_cons, if_neg hp1]
        exact ih (List.nodup_cons.mp hnd).2 h

/-- Searching a filtered list for a key finds the same node as searching the
original, provided every node with that key passes the filter (used with the
filter "hashes to bucket `i`" at `i = bucketIdx k`). -/
theorem findNode_filter (l : List (K × V)) (q : K × V → Bool) (k : K)
    (hq : ∀ p : K × V, p.1 = k → q p = true) :
    findNode (l.filter q) k = findNode l k := by
  induction l with
  | nil => rfl
  | cons p rest ih =>
      by_cases hpk : p.1 = k
      · rw [List.filter_cons, if_pos (by simp [hq p hpk]), findNode_cons,
          findNode_cons, if_pos hpk, if_pos hpk]
      · rw [List.filter_cons]
        by_cases hqp : q p = true
        · rw [if_pos (by simp [hqp]), findNode_cons, findNode_cons,
            if_neg hpk, if_neg hpk, ih]
        · rw [if_neg (by simpa using hqp), findNode_cons, if_neg hpk, ih]

/-- A node found in a filtered list all of whose members hash to bucket `i`
has a key hashing to `i`; so a bucket other than `bucketIdx k` never finds
`k`. -/
theorem findNode_filter_ne (l : List (K × V)) (f : K → Bool) (k : K)
    (hk : f k = false) :
    findNode (l.filter fun p => f p.1) k = none := by
  rw [findNode_eq_none]
  intro hm
  rcases List.mem_map.mp hm with ⟨p, hp, hpk⟩
  have := List.of_mem_filter hp
  rw [hpk, hk] at this
  cases this

@[simp]
theorem updateFirst_nil (k : K) (v : V) : updateFirst ([] : List (K × V)) k v = [] := rfl

theorem map_fst_updateFirst (l : List (K × V)) (k : K) (v : V) :
    (updateFirst l k v).map Prod.fst = l.map Prod.fst := by
  induction l with
  | nil => rfl
  | cons p rest ih =>
      by_cases h : p.1 = k <;> simp [updateFirst, h, ih]

theorem length_updateFirst (l : List (K × V)) (k : K) (v : V) :
    (updateFirst l k v).length = l.length := by
  induction l with
  | nil => rfl
  | cons p rest ih =>
      by_cases h : p.1 = k <;> simp [updateFirst, h, ih]

theorem updateFirst_of_not_mem {l : List (K × V)} {k : K} (v : V)
    (h : k ∉ l.map Prod.fst) : updateFirst l k v = l := by
  induction l with
  | nil => rfl
  | cons p rest ih =>
      simp only [List.map_cons, List.mem_cons, not_or] at h
      rw [updateFirst, if_neg fun hh => h.1 hh.symm, ih h.2]

theorem findNode_updateFirst_self (l : List (K × V)) (k : K) (v : V) :
    findNode (updateFirst l k v) k = (findNode l k).map fun p => (p.1, v) := by
  induction l with
  | nil => rfl
  | cons p rest ih =>
      by_cases h : p.1 = k
      · simp [updateFirst, h, findNode_cons]
      · simp only [updateFirst, if_neg h]
        rw [findNode_cons, findNode_cons, if_neg h, if_neg h, ih]

theorem findNode_updateFirst_ne (l : List (K × V)) {k q : K} (v : V)
    (h : q ≠ k) : findNode (updateFirst l k v) q = findNode l q := by
  induction l with
  | nil => rfl
  | cons p rest ih =>
      by_cases hpk : p.1 = k
      · have hkq : ¬ k = q := fun hh => h hh.symm
        simp [updateFirst, hpk, findNode_cons, hkq]
      · rw [updateFirst, if_neg hpk, findNode_cons, findNode_cons, ih]

/-- Updating the value of key `k` commutes with restricting to `k`'s own
bucket. -/
theorem filter_updateFirst_pos (l : List (K × V)) (f : K → Bool) (k : K)
    (v : V) (hk : f k = true) :
    (updateFirst l k v).filter (fun p => f p.1) =
      updateFirst (l.filter fun p => f p.1) k v := by
  induction l with
  | nil => rfl
  | cons p rest ih =>
      by_cases hpk : p.1 = k
      · subst hpk
        simp [updateFirst, List.filter_cons, hk]
      · rw [updateFirst, if_neg hpk]
        by_cases hfp : f p.1 = true
        · simp [List.filter_cons, hfp, updateFirst, hpk, ih]
        · simp only [Bool.not_eq_true] at hfp
          simp [List.filter_cons, hfp, ih]

/-- Updating the value of key `k` leaves every other bucket's restriction
unchanged. -/
theorem filter_updateFirst_neg (l : List (K × V)) (f : K → Bool) (k : K)
    (v : V) (hk : f k = false) :
    (updateFirst l k v).filter (fun p => f p.1) = l.filter fun p => f p.1 := by
  induction l with
  | nil => rfl
  | cons p rest ih =>
      by_cases hpk : p.1 = k
      · subst hpk
        simp [updateFirst, List.filter_cons, hk]
      · rw [updateFirst, if_neg hpk]
        simp [List.filter_cons, ih]

@[simp]
theorem removeFirst_nil (k : K) : removeFirst ([] : List (K × V)) k = [] := rfl

theorem removeFirst_cons (p : K × V) (l : List (K × V)) (k : K) :
    removeFirst (p :: l) k = if p.1 = k then l else p :: removeFirst l k := by
  by_cases h : p.1 = k <;> simp [removeFirst, List.eraseP_cons, h]

theorem removeFirst_sublist (l : List (K × V)) (k : K) :
    List.Sublist (removeFirst l k) l :=
  List.eraseP_sublist l

theorem nodup_removeFirst {l : List (K × V)} (k : K)
    (h : (l.map Prod.fst).Nodup) :
    ((removeFirst l k).map Prod.fst).Nodup :=
  h.sublist ((removeFirst_sublist l k).map Prod.fst)

theorem length_removeFirst_of_found {l : List (K × V)} {k : K} {p : K × V}
    (h : findNode l k = some p) :
    (removeFirst l k).length + 1 = l.length := by
  induction l with
  | nil => cases h
  | cons q rest ih =>
      rw [findNode_cons] at h
      by_cases hq : q.1 = k
      · rw [removeFirst_cons, if_pos hq]
        simp
      · rw [if_neg hq] at h
        rw [removeFirst_cons, if_neg hq]
        have := ih h
        simp only [List.length_cons]
        omega

theorem findNode_removeFirst_self {l : List (K × V)} {k : K}
    (hnd : (l.map Prod.fst).Nodup) :
    findNode (removeFirst l k) k = none := by
  induction l with
  | nil => rfl
  | cons p rest ih =>
      rw [List.map_cons] at hnd
      have hnd' := (List.nodup_cons.mp hnd).2
      by_cases hpk : p.1 = k
      · rw [removeFirst_cons, if_pos hpk, findNode_eq_none, ← hpk]
        exact (List.nodup_cons.mp hnd).1
      · rw [removeFirst_cons, if_neg hpk, findNode_cons, if_neg hpk, ih hnd']

theorem findNode_removeFirst_ne (l : List (K × V)) {k q : K} (h : q ≠ k) :
    findNode (removeFirst l k) q = findNode l q := by
  induction l with
  | nil => rfl
  | cons p rest ih =>
      by_cases hpk : p.1 = k
      · rw [removeFirst_cons, if_pos hpk, findNode_cons, if_neg]
        rw [hpk]
        exact fun hh => h hh.symm
      · rw [removeFirst_cons, if_neg hpk, findNode_cons, findNode_cons, ih]

/-- Removing key `k` commutes with restricting to `k`'s own bucket. -/
theorem filter_removeFirst_pos (l : List (K × V)) (f : K → Bool) (k : K)
    (hk : f k = true) :
    (removeFirst l k).filter (fun p => f p.1) =
      removeFirst (l.filter fun p => f p.1) k := by
  induction l with
  | nil => rfl
  | cons p rest ih =>
      by_cases hpk : p.1 = k
      · subst hpk
        simp [removeFirst_cons, List.filter_cons, hk]
      · rw [removeFirst_cons, if_neg hpk]
        by_cases hfp : f p.1 = true
        · simp [List.filter_cons, hfp, removeFirst_cons, hpk, ih]
        · simp only [Bool.not_eq_true] at hfp
          simp [List.filter_cons, hfp, ih]

/-- Removing key `k` leaves every other bucket's restriction unchanged. -/
theorem filter_removeFirst_neg (l : List (K × V)) (f : K → Bool) (k : K)
    (hk : f k = false) :
    (removeFirst l k).filter (fun p => f p.1) = l.filter fun p => f p.1 := by
  induction l with
  | nil => rfl
  | cons p rest ih =>
      by_cases hpk : p.1 = k
      · subst hpk
        simp [removeFirst_cons, List.filter_cons, hk]
      · rw [removeFirst_cons, if_neg hpk]
        simp [List.filter_cons, ih]

/-! ## Lemmas about the bucket array abstraction -/

theorem length_bucketsOf (hf : K → ℤ) (cap : ℕ) (l : List (K × V)) :
    (bucketsOf hf cap l).length = cap := by
  simp [bucketsOf]

theorem getElem_bucketsOf (hf : K → ℤ) (cap : ℕ) (l : List (K × V)) (i : ℕ)
    (h : i < (bucketsOf hf cap l).length) :
    (bucketsOf hf cap l)[i] =
      l.filter fun p => decide (bucketIdx hf cap p.1 = i) := by
  simp [bucketsOf]

theorem getD_bucketsOf (hf : K → ℤ) (cap : ℕ) (l : List (K × V)) (i : ℕ)
    (h : i < cap) :
    (bucketsOf hf cap l).getD i [] =
      l.filter fun p => decide (bucketIdx hf cap p.1 = i) := by
  have hlen : i < (bucketsOf hf cap l).length := by
    simpa [length_bucketsOf] using h
  rw [List.getD_eq_getElem?_getD, List.getElem?_eq_getElem hlen,
    getElem_bucketsOf hf cap l i hlen]
  rfl

theorem bucketsOf_nil (hf : K → ℤ) (cap : ℕ) :
    bucketsOf hf cap ([] : List (K × V)) = List.replicate cap [] := by
  apply List.ext_getElem
  · simp [length_bucketsOf]
  · intro i h1 h2
    simp [bucketsOf]

/-- Generic update step: replacing bucket `bucketIdx k` of `bucketsOf l` by
`g` applied to that bucket gives `bucketsOf l'`, provided `g` commutes with
the restriction to `k`'s bucket and the other buckets of `l'` match those of
`l`. -/
theorem set_bucketsOf (hf : K → ℤ) {cap : ℕ}
    (l l' : List (K × V)) (k : K) (b : List (K × V))
    (hb : ∀ i : ℕ, i < cap →
      (if i = bucketIdx hf cap k then b
       else l.filter fun p => decide (bucketIdx hf cap p.1 = i)) =
      l'.filter fun p => decide (bucketIdx hf cap p.1 = i)) :
    (bucketsOf hf cap l).set (bucketIdx hf cap k) b = bucketsOf hf cap l' := by
  apply List.ext_getElem
  · simp [length_bucketsOf]
  · intro i h1 h2
    have hi : i < cap := by simpa [length_bucketsOf] using h2
    have hl1 : i < (bucketsOf hf cap l).length := by
      simpa [length_bucketsOf] using hi
    rw [List.getElem_set, getElem_bucketsOf hf cap l' i h2]
    by_cases hik : bucketIdx hf cap k = i
    · rw [if_pos hik]
      have := hb i hi
      rw [if_pos hik.symm] at this
      exact this
    · rw [if_neg hik, getElem_bucketsOf hf cap l i hl1]
      have := hb i hi
      rw [if_neg fun hh => hik hh.symm] at this
      exact this

/-! ## Characterisation of the read operations under well-formedness -/

theorem WF.capPos {hf : K → ℤ} {t : HashTableState K V} (h : WF hf t) :
    0 < t.capacity := h.1

theorem WF.bucketsEq {hf : K → ℤ} {t : HashTableState K V} (h : WF hf t) :
    t.buckets = bucketsOf hf t.capacity t.keysList := h.2.1

theorem WF.nodupKeys {hf : K → ℤ} {t : HashTableState K V} (h : WF hf t) :
    (t.keysList.map Prod.fst).Nodup := h.2.2.1

theorem WF.sizeEq {hf : K → ℤ} {t : HashTableState K V} (h : WF hf t) :
    t.size = (t.keysList.length : ℤ) := h.2.2.2

/-- Under `WF` the bucket that `k` hashes to is the restriction of
`_keys_list` to that bucket. -/
theorem bucket_of_WF {hf : K → ℤ} {t : HashTableState K V} (h : WF hf t)
    (k : K) :
    t.buckets.getD (bucketIdx hf t.capacity k) [] =
      t.keysList.filter fun p =>
        decide (bucketIdx hf t.capacity p.1 = bucketIdx hf t.capacity k) := by
  rw [h.bucketsEq, getD_bucketsOf hf t.capacity t.keysList _
    (bucketIdx_lt hf h.capPos k)]

/-- Under `WF` a bucket-local find is a find in `_keys_list`. -/
theorem findNode_bucket_of_WF {hf : K → ℤ} {t : HashTableState K V}
    (h : WF hf t) (k : K) :
    findNode (t.buckets.getD (bucketIdx hf t.capacity k) []) k =
      findNode t.keysList k := by
  rw [bucket_of_WF h k]
  exact findNode_filter _ _ _ fun p hp => by simp [hp]

/-- `__getitem__` under `WF`: a lookup in the insertion-order list. -/
theorem getItem_of_WF {hf : K → ℤ} {t : HashTableState K V} (h : WF hf t)
    (k : K) :
    getItem hf t k =
      match findNode t.keysList k with
      | some p => .ok p.2
      | none => .error .keyNotFound := by
  unfold getItem
  simp only []
  rw [findNode_bucket_of_WF h k]
  rcases findNode t.keysList k with _ | p <;> rfl

/-- `__contains__` under `WF`: membership in the insertion-order list. -/
theorem containsKey_of_WF {hf : K → ℤ} {t : HashTableState K V} (h : WF hf t)
    (k : K) :
    containsKey hf t k = (findNode t.keysList k).isSome := by
  unfold containsKey
  rw [findNode_bucket_of_WF h k]

theorem specSet_of_found {l : List (K × V)} {k : K} {p : K × V} (v : V)
    (h : findNode l k = some p) : specSet l k v = updateFirst l k v := by
  unfold specSet
  rw [h]

theorem specSet_of_none {l : List (K × V)} {k : K} (v : V)
    (h : findNode l k = none) : specSet l k v = l ++ [(k, v)] := by
  unfold specSet
  rw [h]

/-! ## Preservation of well-formedness by the mutating operations -/

/-- The in-place update branch of `__setitem__` preserves well-formedness. -/
theorem WF_update {hf : K → ℤ} {t : HashTableState K V} (h : WF hf t)
    (k : K) (v : V) :
    WF hf { t with
      buckets := t.buckets.set (bucketIdx hf t.capacity k)
        (updateFirst (t.buckets.getD (bucketIdx hf t.capacity k) []) k v),
      keysList := updateFirst t.keysList k v } := by
  refine ⟨h.capPos, ?_, ?_, ?_⟩
  · show t.buckets.set _ _ = bucketsOf hf t.capacity (updateFirst t.keysList k v)
    rw [bucket_of_WF h k, h.bucketsEq]
    apply set_bucketsOf
    intro i hi
    by_cases hik : i = bucketIdx hf t.capacity k
    · rw [if_pos hik, hik]
      exact (filter_updateFirst_pos t.keysList
        (fun q => decide (bucketIdx hf t.capacity q = bucketIdx hf t.capacity k))
        k v (by simp)).symm
    · rw [if_neg hik]
      exact (filter_updateFirst_neg t.keysList
        (fun q => decide (bucketIdx hf t.capacity q = i)) k v
        (decide_eq_false fun hh => hik hh.symm)).symm
  · show (List.map Prod.fst (updateFirst t.keysList k v)).Nodup
    rw [map_fst_updateFirst]
    exact h.nodupKeys
  · show t.size = ((updateFirst t.keysList k v).length : ℤ)
    rw [length_updateFirst]
    exact h.sizeEq

/-- The fresh-append branch of `__setitem__` preserves well-formedness
(before the resize check). -/
theorem WF_append {hf : K → ℤ} {t : HashTableState K V} (h : WF hf t)
    {k : K} (v : V) (hfresh : findNode t.keysList k = none) :
    WF hf { t with
      buckets := t.buckets.set (bucketIdx hf t.capacity k)
        ((t.buckets.getD (bucketIdx hf t.capacity k) []) ++ [(k, v)]),
      keysList := t.keysList ++ [(k, v)],
      size := t.size + 1 } := by
  refine ⟨h.capPos, ?_, ?_, ?_⟩
  · show t.buckets.set _ _ = bucketsOf hf t.capacity (t.keysList ++ [(k, v)])
    rw [bucket_of_WF h k, h.bucketsEq]
    apply set_bucketsOf
    intro i hi
    rw [List.filter_append]
    by_cases hik : i = bucketIdx hf t.capacity k
    · rw [if_pos hik, hik]
      simp
    · rw [if_neg hik]
      have : ¬ (bucketIdx hf t.capacity k = i) := fun hh => hik hh.symm
      simp [this]
  · show (List.map Prod.fst (t.keysList ++ [(k, v)])).Nodup
    rw [List.map_append]
    rw [List.nodup_append]
    refine ⟨h.nodupKeys, by simp, ?_⟩
    intro a ha hb
    simp only [List.map_cons, List.map_nil, List.mem_singleton] at hb
    subst hb
    exact findNode_eq_none.mp hfresh ha
  · show t.size + 1 = ((t.keysList ++ [(k, v)]).length : ℤ)
    rw [h.sizeEq]
    simp

/-- Deleting a found key preserves well-formedness. -/
theorem WF_remove {hf : K → ℤ} {t : HashTableState K V} (h : WF hf t)
    {k : K} {p : K × V} (hp : findNode t.keysList k = some p) :
    WF hf { t with
      buckets := t.buckets.set (bucketIdx hf t.capacity k)
        (removeFirst (t.buckets.getD (bucketIdx hf t.capacity k) []) k),
      keysList := removeFirst t.keysList k,
      size := t.size - 1 } := by
  refine ⟨h.capPos, ?_, ?_, ?_⟩
  · show t.buckets.set _ _ = bucketsOf hf t.capacity (removeFirst t.keysList k)
    rw [bucket_of_WF h k, h.bucketsEq]
    apply set_bucketsOf
    intro i hi
    by_cases hik : i = bucketIdx hf t.capacity k
    · rw [if_pos hik, hik]
      exact (filter_removeFirst_pos t.keysList
        (fun q => decide (bucketIdx hf t.capacity q = bucketIdx hf t.capacity k))
        k (by simp)).symm
    · rw [if_neg hik]
      exact (filter_removeFirst_neg t.keysList
        (fun q => decide (bucketIdx hf t.capacity q = i)) k
        (decide_eq_false fun hh => hik hh.symm)).symm
  · exact nodup_removeFirst k h.nodupKeys
  · show t.size - 1 = ((removeFirst t.keysList k).length : ℤ)
    rw [h.sizeEq]
    have := length_removeFirst_of_found hp
    omega

/-! ## The `__setitem__` / `_resize` contracts, by induction on the fuel -/

/-- `setItemCore` meets the `SetContract` whenever the resize it may invoke
meets the `ResizeContract`. -/
theorem setItemCore_spec (hf : K → ℤ)
    {resizeFn : HashTableState K V → ℕ → Option (HashTableState K V)}
    (hR : ResizeContract hf resizeFn) {t : HashTableState K V} {k : K}
    {v : V} {t' : HashTableState K V} (hwf : WF hf t)
    (hrun : setItemCore hf resizeFn t k v = some t') :
    SetContract hf t t' k v := by
  unfold setItemCore at hrun
  simp only [] at hrun
  split at hrun
  · rename_i p heq
    rw [findNode_bucket_of_WF hwf k] at heq
    cases hrun
    exact ⟨WF_update hwf k v, (specSet_of_found v heq).symm, rfl, ⟨0, by simp⟩⟩
  · rename_i heq
    rw [findNode_bucket_of_WF hwf k] at heq
    set t1 : HashTableState K V :=
      { t with
        buckets := t.buckets.set (bucketIdx hf t.capacity k)
          ((t.buckets.getD (bucketIdx hf t.capacity k) []) ++ [(k, v)]),
        keysList := t.keysList ++ [(k, v)],
        size := t.size + 1 } with ht1
    have hwf1 : WF hf t1 := WF_append hwf v heq
    have hkl1 : t1.keysList = t.keysList ++ [(k, v)] := by rw [ht1]
    have hlf1 : t1.loadFactor = t.loadFactor := by rw [ht1]
    have hcap1 : t1.capacity = t.capacity := by rw [ht1]
    by_cases hle : loadExceeded t1 = true
    · rw [if_pos hle] at hrun
      have hc : 0 < t.capacity * 2 := by
        have := hwf.capPos
        omega
      obtain ⟨hwf', hkl, hlf, j, hcap⟩ := hR t1 (t.capacity * 2) t' hwf1 hc hle hrun
      refine ⟨hwf', ?_, ?_, ?_⟩
      · rw [hkl, hkl1, specSet_of_none v heq]
      · rw [hlf, hlf1]
      · refine ⟨j + 1, ?_⟩
        rw [hcap, pow_succ]
        ring
    · rw [if_neg hle] at hrun
      injection hrun with hrun'
      subst hrun'
      exact ⟨hwf1, by rw [hkl1, specSet_of_none v heq], hlf1, ⟨0, by simp [hcap1]⟩⟩

/-- A `findSome?` over `range n` whose function returns `none` everywhere
except possibly at `i0 < n` is the value at `i0`. -/
theorem findSome?_range_eq {β : Type} (g : ℕ → Option β) :
    ∀ (n i0 : ℕ), i0 < n → (∀ i, i ≠ i0 → g i = none) →
      (List.range n).findSome? g = g i0 := by
  intro n
  induction n with
  | zero => intro i0 h; omega
  | succ m ih =>
      intro i0 hi hother
      rw [List.range_succ, List.findSome?_append]
      by_cases him : i0 < m
      · rw [ih i0 him hother]
        rcases hg : g i0 with _ | b
        · simp [List.findSome?, hother m (by omega)]
        · rfl
      · have him0 : i0 = m := by omega
        subst him0
        have hnone : (List.range i0).findSome? g = none :=
          List.findSome?_eq_none_iff.mpr fun a ha =>
            hother a (by simp at ha; omega)
        rw [hnone]
        rcases hg : g i0 with _ | b <;> simp [List.findSome?, hg]

/-- The rehash loop's bucket scan over the bucket array of a keys list finds
exactly what a direct scan of the keys list finds: only bucket
`bucketIdx k` can contain key `k`, and within it the order matches. -/
theorem findInBuckets_bucketsOf (hf : K → ℤ) {cap : ℕ} (hcap : 0 < cap)
    (l : List (K × V)) (k : K) :
    findInBuckets (bucketsOf hf cap l) k = findNode l k := by
  unfold findInBuckets bucketsOf
  rw [List.findSome?_map]
  have := findSome?_range_eq
    (fun i => findNode (l.filter fun p => decide (bucketIdx hf cap p.1 = i)) k)
    cap (bucketIdx hf cap k) (bucketIdx_lt hf hcap k)
    (fun i hi => findNode_filter_ne l
      (fun q => decide (bucketIdx hf cap q = i)) k
      (decide_eq_false fun hh => hi (hh ▸ rfl)))
  rw [show ((fun b => findNode b k) ∘ fun i =>
      l.filter fun p => decide (bucketIdx hf cap p.1 = i)) =
      fun i => findNode (l.filter fun p => decide (bucketIdx hf cap p.1 = i)) k
    from rfl, this]
  exact findNode_filter l _ k fun p hp => by simp [hp]

/-- The rehash loop of `_resize` rebuilds exactly the old keys list: walking
the old keys in insertion order, looking each one up in the old bucket array
and re-inserting it with `__setitem__` reproduces the original
`_keys_list` (and a well-formed state), no matter how the inner inserts
cascade.  `done` is the already-processed prefix, `rest` the remainder. -/
theorem reinsertLoop_spec (hf : K → ℤ)
    {setFn : HashTableState K V → K → V → Option (HashTableState K V)}
    (hS : ∀ (u : HashTableState K V) (k : K) (v : V)
      (u' : HashTableState K V), WF hf u → setFn u k v = some u' →
      SetContract hf u u' k v)
    {cap0 : ℕ} (hcap0 : 0 < cap0) {L0 : List (K × V)}
    (hnd : (L0.map Prod.fst).Nodup) :
    ∀ (rest done : List (K × V)) (u u' : HashTableState K V),
      L0 = done ++ rest → WF hf u → u.keysList = done →
      reinsertLoopCore setFn (bucketsOf hf cap0 L0) (rest.map Prod.fst) u =
        some u' →
      WF hf u' ∧ u'.keysList = L0 ∧ u'.loadFactor = u.loadFactor ∧
        ∃ j : ℕ, u'.capacity = u.capacity * 2 ^ j := by
  intro rest
  induction rest with
  | nil =>
      intro done u u' hsplit hwf hkl hloop
      simp only [List.map_nil, reinsertLoopCore] at hloop
      injection hloop with hloop'
      subst hloop'
      simp only [List.append_nil] at hsplit
      exact ⟨hwf, by rw [hkl, hsplit], rfl, ⟨0, by simp⟩⟩
  | cons hd tl ih =>
      intro done u u' hsplit hwf hkl hloop
      simp only [List.map_cons, reinsertLoopCore] at hloop
      rw [findInBuckets_bucketsOf hf hcap0 L0 hd.1] at hloop
      have hdone : hd.1 ∉ done.map Prod.fst := by
        have hnd' : (done.map Prod.fst ++ hd.1 :: tl.map Prod.fst).Nodup := by
          rw [hsplit] at hnd
          simpa using hnd
        have := (List.nodup_append.mp hnd').2.2
        intro hmem
        exact this hmem (by simp)
      have hfindL0 : findNode L0 hd.1 = some hd := by
        rw [hsplit, findNode_append, findNode_eq_none.mpr hdone]
        rw [findNode_cons, if_pos rfl]
        rfl
      rw [hfindL0] at hloop
      simp only [Option.bind_eq_some] at hloop
      obtain ⟨u1, hset, hloop'⟩ := hloop
      obtain ⟨hwf1, hkl1, hlf1, j1, hcap1⟩ := hS u hd.1 hd.2 u1 hwf hset
      have hfresh : findNode u.keysList hd.1 = none := by
        rw [hkl]
        exact findNode_eq_none.mpr hdone
      have hkl1' : u1.keysList = done ++ [hd] := by
        rw [hkl1, specSet_of_none _ hfresh, hkl]
      obtain ⟨hwf', hklF, hlfF, j2, hcapF⟩ :=
        ih (done ++ [hd]) u1 u' (by rw [hsplit, List.append_assoc]; rfl)
          hwf1 hkl1' hloop'
      refine ⟨hwf', hklF, by rw [hlfF, hlf1], ⟨j1 + j2, ?_⟩⟩
      rw [hcapF, hcap1, pow_add]
      ring

/-- The contract of `ThreadSafeHashTable._resize` and
`ThreadSafeHashTable.__setitem__`, for every fuel. -/
theorem ts_contract (hf : K → ℤ) :
    ∀ fuel : ℕ,
      ResizeContract hf
        (ThreadSafeHashTable.resizeFuel (K := K) (V := V) hf fuel) ∧
      ∀ (t : HashTableState K V) (k : K) (v : V) (t' : HashTableState K V),
        WF hf t → ThreadSafeHashTable.setItemFuel hf fuel t k v = some t' →
        SetContract hf t t' k v := by
  intro fuel
  induction fuel with
  | zero =>
      have hR : ResizeContract hf
          (ThreadSafeHashTable.resizeFuel (K := K) (V := V) hf 0) := by
        intro u c u' _ _ _ hrun
        cases hrun
      exact ⟨hR, fun t k v t' hwf hrun => setItemCore_spec hf hR hwf hrun⟩
  | succ f ih =>
      have hR : ResizeContract hf
          (ThreadSafeHashTable.resizeFuel (K := K) (V := V) hf (f + 1)) := by
        intro u c u' hwf hc hexc hrun
        rw [ThreadSafeHashTable.resizeFuel] at hrun
        rw [if_pos hexc] at hrun
        simp only [] at hrun
        set t1 : HashTableState K V :=
          { u with
            capacity := c,
            buckets := List.replicate c [],
            size := 0,
            keysList := [] } with ht1
        have hwf1 : WF hf t1 := by
          refine ⟨hc, ?_, by simp [ht1], by simp [ht1]⟩
          show List.replicate c [] = bucketsOf hf c []
          rw [bucketsOf_nil]
        rw [hwf.bucketsEq] at hrun
        obtain ⟨hwf', hkl, hlf, j, hcap⟩ :=
          reinsertLoop_spec hf (fun w a b w' hw hr =>
              setItemCore_spec hf ih.1 hw hr)
            hwf.capPos hwf.nodupKeys u.keysList [] t1 u' (by simp)
            hwf1 (by rw [ht1]) hrun
        refine ⟨hwf', hkl, by rw [hlf, ht1], ⟨j, ?_⟩⟩
        rw [hcap, ht1]
      exact ⟨hR, fun t k v t' hwf hrun => setItemCore_spec hf hR hwf hrun⟩

/-! ## The delete and driver-step contracts -/

theorem removeFirst_of_none {l : List (K × V)} {k : K}
    (h : findNode l k = none) : removeFirst l k = l := by
  induction l with
  | nil => rfl
  | cons p rest ih =>
      rw [findNode_cons] at h
      by_cases hpk : p.1 = k
      · rw [if_pos hpk] at h
        cases h
      · rw [if_neg hpk] at h
        rw [removeFirst_cons, if_neg hpk, ih h]

/-- `__delitem__` on an absent key raises `KeyError` (spec: `KeyNotFound`)
and mutates nothing. -/
theorem delItem_absent {hf : K → ℤ} {t : HashTableState K V} {k : K}
    (hwf : WF hf t) (hn : findNode t.keysList k = none) :
    delItem hf t k = .error .keyNotFound := by
  unfold delItem
  simp only []
  rw [findNode_bucket_of_WF hwf k, hn]

/-- `__delitem__` on a present key removes exactly that entry from the
bucket and from `_keys_list` and decrements `_size`; well-formedness is
preserved and capacity and load factor are untouched. -/
theorem delItem_present {hf : K → ℤ} {t : HashTableState K V} {k : K}
    {p : K × V} (hwf : WF hf t) (hp : findNode t.keysList k = some p) :
    ∃ t', delItem hf t k = .ok t' ∧ WF hf t' ∧
      t'.keysList = removeFirst t.keysList k ∧
      t'.capacity = t.capacity ∧ t'.loadFactor = t.loadFactor ∧
      t'.size = t.size - 1 := by
  refine ⟨_, ?_, WF_remove hwf hp, rfl, rfl, rfl, rfl⟩
  unfold delItem
  simp only []
  rw [findNode_bucket_of_WF hwf k, hp]

/-- One driver step on a well-formed state: the state stays well-formed and
`_keys_list` evolves per the spec-level model (and capacity never changes
except through a `set`). -/
theorem stepWithSet_spec (hf : K → ℤ)
    {setFn : HashTableState K V → K → V → Option (HashTableState K V)}
    (hS : ∀ (u : HashTableState K V) (k : K) (v : V)
      (u' : HashTableState K V), WF hf u → setFn u k v = some u' →
      SetContract hf u u' k v)
    {t t1 : HashTableState K V} {op : Op K V} {o : Obs K V}
    (hwf : WF hf t) (hstep : stepWithSet setFn hf t op = some (t1, o)) :
    WF hf t1 ∧ t1.keysList = specStep t.keysList op := by
  cases op with
  | set k v =>
      simp only [stepWithSet, Option.map_eq_some'] at hstep
      obtain ⟨u, hu, hpair⟩ := hstep
      cases hpair
      obtain ⟨hwf', hkl, -, -⟩ := hS t k v _ hwf hu
      exact ⟨hwf', hkl⟩
  | del k =>
      rcases hfind : findNode t.keysList k with _ | p
      · rw [stepWithSet, delItem_absent hwf hfind] at hstep
        injection hstep with h1
        cases h1
        exact ⟨hwf, (removeFirst_of_none hfind).symm⟩
      · obtain ⟨t', hok, hwf', hkl, -, -, -⟩ := delItem_present hwf hfind
        rw [stepWithSet, hok] at hstep
        injection hstep with h1
        cases h1
        exact ⟨hwf', hkl⟩
  | getIdx k =>
      rw [stepWithSet] at hstep
      rcases hget : getItem hf t k with v | e <;> rw [hget] at hstep <;>
        injection hstep with h1 <;> cases h1 <;> exact ⟨hwf, rfl⟩
  | getD k d =>
      injection hstep with h1
      cases h1
      exact ⟨hwf, rfl⟩
  | hasKey k =>
      injection hstep with h1
      cases h1
      exact ⟨hwf, rfl⟩
  | lenOp =>
      injection hstep with h1
      cases h1
      exact ⟨hwf, rfl⟩
  | iterOp =>
      injection hstep with h1
      cases h1
      exact ⟨hwf, rfl⟩

/-- A terminating single-threaded run from a well-formed state keeps the
state well-formed and drives `_keys_list` exactly as the spec-level ordered
map prescribes. -/
theorem runWithSet_spec (hf : K → ℤ)
    {setFn : HashTableState K V → K → V → Option (HashTableState K V)}
    (hS : ∀ (u : HashTableState K V) (k : K) (v : V)
      (u' : HashTableState K V), WF hf u → setFn u k v = some u' →
      SetContract hf u u' k v) :
    ∀ (ops : List (Op K V)) (t t' : HashTableState K V)
      (os : List (Obs K V)), WF hf t →
      runWithSet setFn hf ops t = some (t', os) →
      WF hf t' ∧ t'.keysList = specRun ops t.keysList := by
  intro ops
  induction ops with
  | nil =>
      intro t t' os hwf hrun
      rw [runWithSet] at hrun
      injection hrun with h1
      cases h1
      exact ⟨hwf, rfl⟩
  | cons op rest ih =>
      intro t t' os hwf hrun
      rw [runWithSet] at hrun
      split at hrun
      · rename_i t1 o hstep
        split at hrun
        · rename_i t2 os2 hrest
          injection hrun with h1
          injection h1 with h2 h3
          subst h2
          subst h3
          obtain ⟨hwf1, hkl1⟩ := stepWithSet_spec hf hS hwf hstep
          obtain ⟨hwf2, hkl2⟩ := ih t1 t2 os2 hwf1 hrest
          refine ⟨hwf2, ?_⟩
          rw [hkl2, hkl1]
          rfl
        · cases hrun
      · cases hrun

/-! ## Construction lemmas -/

theorem WF_mkEmptyState (hf : K → ℤ) {cap : ℕ} (hcap : 0 < cap) (lf : ℚ) :
    WF hf (mkEmptyState (K := K) (V := V) cap lf) := by
  refine ⟨hcap, ?_, by simp [mkEmptyState], by simp [mkEmptyState]⟩
  show List.replicate cap [] = bucketsOf hf cap []
  rw [bucketsOf_nil]

/-- Characterisation of a successful `ThreadSafeHashTable.__init__`. -/
theorem initTable_ok {c : ℤ} {l : ℚ} {t0 : HashTableState K V}
    (h : ThreadSafeHashTable.initTable c l = .ok t0) :
    0 < c ∧ 0 < l ∧ l ≤ 1 ∧ t0 = mkEmptyState c.toNat l := by
  unfold ThreadSafeHashTable.initTable at h
  split_ifs at h with h1 h2
  · injection h with h3
    refine ⟨by omega, ?_, ?_, h3.symm⟩ <;> tauto
  
theorem WF_initTable (hf : K → ℤ) {c : ℤ} {l : ℚ} {t0 : HashTableState K V}
    (h : ThreadSafeHashTable.initTable c l = .ok t0) : WF hf t0 := by
  obtain ⟨hc, -, -, ht⟩ := initTable_ok h
  rw [ht]
  exact WF_mkEmptyState hf (by omega) l

/-! ## Lemmas about the spec-level ordered map -/

theorem updateFirst_updateFirst (l : List (K × V)) (k : K) (v1 v2 : V) :
    updateFirst (updateFirst l k v1) k v2 = updateFirst l k v2 := by
  induction l with
  | nil => rfl
  | cons p rest ih =>
      by_cases hpk : p.1 = k
      · rw [updateFirst, if_pos hpk, updateFirst, if_pos hpk, updateFirst,
          if_pos hpk]
      · rw [updateFirst, if_neg hpk, updateFirst, if_neg hpk, updateFirst,
          if_neg hpk, ih]

theorem updateFirst_append_fresh {l : List (K × V)} {k : K} (v1 v2 : V)
    (h : k ∉ l.map Prod.fst) :
    updateFirst (l ++ [(k, v1)]) k v2 = l ++ [(k, v2)] := by
  induction l with
  | nil => simp [updateFirst]
  | cons p rest ih =>
      simp only [List.map_cons, List.mem_cons, not_or] at h
      rw [List.cons_append, updateFirst, if_neg fun hh => h.1 hh.symm,
        ih h.2, List.cons_append]

theorem specSet_specSet (l : List (K × V)) (k : K) (v1 v2 : V) :
    specSet (specSet l k v1) k v2 = specSet l k v2 := by
  rcases hfind : findNode l k with _ | p
  · rw [specSet_of_none v1 hfind]
    have hf2 : findNode (l ++ [(k, v1)]) k = some (k, v1) := by
      rw [findNode_append, hfind, findNode_cons, if_pos rfl]
      rfl
    rw [specSet_of_found v2 hf2, specSet_of_none v2 hfind]
    exact updateFirst_append_fresh v1 v2 (findNode_eq_none.mp hfind)
  · rw [specSet_of_found v1 hfind]
    have hf2 : findNode (updateFirst l k v1) k = some (p.1, v1) := by
      rw [findNode_updateFirst_self, hfind]
      rfl
    rw [specSet_of_found v2 hf2, specSet_of_found v2 hfind]
    exact updateFirst_updateFirst l k v1 v2

theorem map_fst_specSet (l : List (K × V)) (k : K) (v : V) :
    (specSet l k v).map Prod.fst =
      if (findNode l k).isSome then l.map Prod.fst
      else l.map Prod.fst ++ [k] := by
  rcases hfind : findNode l k with _ | p
  · rw [specSet_of_none v hfind]
    simp
  · rw [specSet_of_found v hfind]
    simp [map_fst_updateFirst]

theorem findNode_specSet_self (l : List (K × V)) (k : K) (v : V) :
    ∃ k0 : K, findNode (specSet l k v) k = some (k0, v) := by
  rcases hfind : findNode l k with _ | p
  · refine ⟨k, ?_⟩
    rw [specSet_of_none v hfind, findNode_append, hfind, findNode_cons,
      if_pos rfl]
    rfl
  · refine ⟨p.1, ?_⟩
    rw [specSet_of_found v hfind, findNode_updateFirst_self, hfind]
    rfl

theorem specStep_not_mem {k : K} {l : List (K × V)} {op : Op K V}
    (h : k ∉ l.map Prod.fst) (hop : ∀ v : V, op ≠ Op.set k v) :
    k ∉ (specStep l op).map Prod.fst := by
  cases op with
  | set k' v =>
      have hkk : k' ≠ k := by
        intro hh
        exact (hop v) (by rw [hh])
      rw [specStep, map_fst_specSet]
      by_cases hs : (findNode l k').isSome
      · rw [if_pos hs]
        exact h
      · rw [if_neg hs]
        intro hmem
        rcases List.mem_append.mp hmem with hm | hm
        · exact h hm
        · simp only [List.mem_singleton] at hm
          exact hkk hm.symm
  | del k' =>
      intro hmem
      rcases List.mem_map.mp hmem with ⟨p, hp, hpk⟩
      exact h (List.mem_map.mpr
        ⟨p, (removeFirst_sublist l k').mem hp, hpk⟩)
  | getIdx k' => exact h
  | getD k' d => exact h
  | hasKey k' => exact h
  | lenOp => exact h
  | iterOp => exact h

theorem specRun_not_mem {k : K} :
    ∀ (ops : List (Op K V)) (l : List (K × V)),
      k ∉ l.map Prod.fst → (∀ v : V, Op.set k v ∉ ops) →
      k ∉ (specRun ops l).map Prod.fst := by
  intro ops
  induction ops with
  | nil => exact fun l h _ => h
  | cons op rest ih =>
      intro l h hops
      rw [specRun, List.foldl_cons]
      exact ih (specStep l op)
        (specStep_not_mem h fun v hh =>
          hops v (by rw [hh]; exact List.mem_cons_self _ _))
        (fun v hmem => hops v (List.mem_cons_of_mem _ hmem))

theorem specRun_sets :
    ∀ (pairs l : List (K × V)),
      ((l ++ pairs).map Prod.fst).Nodup →
      specRun (pairs.map fun p => Op.set p.1 p.2) l = l ++ pairs := by
  intro pairs
  induction pairs with
  | nil =>
      intro l _
      simp [specRun]
  | cons p rest ih =>
      intro l h
      have hfresh : p.1 ∉ l.map Prod.fst := by
        rw [List.map_append, List.map_cons] at h
        have hdisj := (List.nodup_append.mp h).2.2
        intro hmem
        exact hdisj hmem (by simp)
      rw [List.map_cons, specRun, List.foldl_cons]
      have hstep : specStep l (Op.set p.1 p.2) = l ++ [p] := by
        rw [specStep, specSet_of_none p.2 (findNode_eq_none.mpr hfresh)]
      rw [hstep]
      have hre : l ++ p :: rest = (l ++ [p]) ++ rest := by simp
      have := ih (l ++ [p]) (by rw [← hre]; exact h)
      rw [specRun] at this
      rw [this, hre]

/-! ## Sequential equivalence of the two classes (for C9)

Sequentially the two classes differ only in (a) constructor validation and
(b) the load-factor re-check at the top of `_resize` — which is invisible
because both classes only ever call `_resize` from `_check_resize`, i.e.
when the load factor is exceeded. -/

theorem setItemCore_congr (hf : K → ℤ)
    {r1 r2 : HashTableState K V → ℕ → Option (HashTableState K V)}
    (h : ∀ u c, loadExceeded u = true → r1 u c = r2 u c)
    (t : HashTableState K V) (k : K) (v : V) :
    setItemCore hf r1 t k v = setItemCore hf r2 t k v := by
  unfold setItemCore
  simp only []
  rcases findNode (t.buckets.getD (bucketIdx hf t.capacity k) []) k with _ | p
  · set t1 : HashTableState K V :=
      { t with
        buckets := t.buckets.set (bucketIdx hf t.capacity k)
          ((t.buckets.getD (bucketIdx hf t.capacity k) []) ++ [(k, v)]),
        keysList := t.keysList ++ [(k, v)],
        size := t.size + 1 } with ht1
    by_cases hle : loadExceeded t1 = true
    · rw [if_pos hle, if_pos hle, h t1 _ hle]
    · rw [if_neg hle, if_neg hle]
  · rfl

theorem reinsertLoopCore_congr
    {s1 s2 : HashTableState K V → K → V → Option (HashTableState K V)}
    (h : ∀ u k v, s1 u k v = s2 u k v)
    (ob : List (List (K × V))) :
    ∀ (ks : List K) (t : HashTableState K V),
      reinsertLoopCore s1 ob ks t = reinsertLoopCore s2 ob ks t := by
  intro ks
  induction ks with
  | nil => intro t; rfl
  | cons k rest ih =>
      intro t
      rw [reinsertLoopCore, reinsertLoopCore]
      rcases findInBuckets ob k with _ | p
      · exact ih t
      · simp only []
        rw [h t k p.2]
        rcases s2 t k p.2 with _ | u <;> simp [ih]

theorem resize_TS_eq_NTS (hf : K → ℤ) :
    ∀ (fuel : ℕ) (t : HashTableState K V) (c : ℕ),
      loadExceeded t = true →
      ThreadSafeHashTable.resizeFuel hf fuel t c =
        NonThreadSafeHashTable.resizeFuel hf fuel t c := by
  intro fuel
  induction fuel with
  | zero => intro t c _; rfl
  | succ f ih =>
      intro t c hex
      rw [ThreadSafeHashTable.resizeFuel, NonThreadSafeHashTable.resizeFuel,
        if_pos hex]
      exact reinsertLoopCore_congr
        (fun u a b => setItemCore_congr hf (fun w d hw => ih w d hw) u a b)
        _ _ _

theorem setItem_TS_eq_NTS (hf : K → ℤ) (fuel : ℕ)
    (t : HashTableState K V) (k : K) (v : V) :
    ThreadSafeHashTable.setItemFuel hf fuel t k v =
      NonThreadSafeHashTable.setItemFuel hf fuel t k v :=
  setItemCore_congr hf (fun u c hu => resize_TS_eq_NTS hf fuel u c hu) t k v

theorem runWithSet_congr (hf : K → ℤ)
    {s1 s2 : HashTableState K V → K → V → Option (HashTableState K V)}
    (h : ∀ u k v, s1 u k v = s2 u k v) :
    ∀ (ops : List (Op K V)) (t : HashTableState K V),
      runWithSet s1 hf ops t = runWithSet s2 hf ops t := by
  intro ops
  induction ops with
  | nil => intro t; rfl
  | cons op rest ih =>
      intro t
      rw [runWithSet, runWithSet]
      have hstep : stepWithSet s1 hf t op = stepWithSet s2 hf t op := by
        cases op <;> simp [stepWithSet, h]
      rw [hstep]
      rcases stepWithSet s2 hf t op with _ | ⟨t1, o⟩
      · rfl
      · simp only []
        rw [ih t1]

/-! ## Lock-acquisition order lemmas (for C2) -/

/-- Both branches of `__setitem__` acquire the key's bucket lock first and
the table-wide lock second — the inverse of the mandated order. -/
theorem setItemAcq_bucket_first (hf : K → ℤ) (fuel : ℕ)
    (t t' : HashTableState K V) (k : K) (v : V) (tr : List LockAcq)
    (h : ThreadSafeHashTable.setItemAcqFuel hf fuel t k v = some (t', tr)) :
    tr.take 2 = [.bucket (bucketIdx hf t.capacity k), .global] := by
  unfold ThreadSafeHashTable.setItemAcqFuel setItemAcqCore at h
  simp only [] at h
  split at h
  · rename_i p heq
    injection h with h1
    injection h1 with h2 h3
    subst h3
    rfl
  · rename_i heq
    split at h
    · split at h
      · rename_i t2 tr2 hres
        injection h with h1
        injection h1 with h2 h3
        subst h3
        rfl
      · cases h
    · injection h with h1
      injection h1 with h2 h3
      subst h3
      rfl

/-- `_resize` acquires the table-wide lock first (then the bucket locks). -/
theorem resizeAcq_global_first (hf : K → ℤ) (fuel : ℕ)
    (t t' : HashTableState K V) (c : ℕ) (tr : List LockAcq)
    (h : ThreadSafeHashTable.resizeAcqFuel hf fuel t c = some (t', tr)) :
    tr.head? = some .global := by
  cases fuel with
  | zero => cases h
  | succ f =>
      rw [ThreadSafeHashTable.resizeAcqFuel] at h
      simp only [] at h
      split at h
      · split at h
        · rename_i t2 tr2 hloop
          injection h with h1
          injection h1 with h2 h3
          subst h3
          rfl
        · cases h
      · injection h with h1
        injection h1 with h2 h3
        subst h3
        rfl

/-- `__delitem__` acquires the bucket lock first; the table-wide lock is
acquired (second) exactly when the key is present. -/
theorem delItemAcq_spec (hf : K → ℤ) (t : HashTableState K V) (k : K) :
    delItemAcqTrace hf t k = [.bucket (bucketIdx hf t.capacity k)] ∨
    delItemAcqTrace hf t k =
      [.bucket (bucketIdx hf t.capacity k), .global] := by
  unfold delItemAcqTrace
  simp only []
  rcases findNode (t.buckets.getD (bucketIdx hf t.capacity k) []) k with _ | p
  · exact Or.inl rfl
  · exact Or.inr rfl

/-! ## The claims -/

/-- **C3**: for every well-formed map state (well-formedness holds in every
state reachable from a valid construction — `WF_initTable`, `ts_contract`,
`runWithSet_spec`), a terminating `set(k, v)` followed immediately by
`get(k)` on the same thread returns `v`, both through `__getitem__` and
through `get` with any default. -/
theorem claim_C3 (hf : K → ℤ) (fuel : ℕ) (t t' : HashTableState K V)
    (k : K) (v : V) (hwf : WF hf t)
    (hset : ThreadSafeHashTable.setItemFuel hf fuel t k v = some t') :
    getItem hf t' k = .ok v ∧ ∀ d : V, getDefault hf t' k d = v := by
  obtain ⟨hwf', hkl, -, -⟩ := (ts_contract hf fuel).2 t k v t' hwf hset
  obtain ⟨k0, hfind⟩ := findNode_specSet_self t.keysList k v
  have hget : getItem hf t' k = .ok v := by
    rw [getItem_of_WF hwf' k, hkl, hfind]
  refine ⟨hget, fun d => ?_⟩
  rw [getDefault, hget]

/-- **C4**: on a well-formed state, `delete(k)` of a present key succeeds,
after which `contains(k)` is false and `length()` has decreased by exactly
one; `delete(k)` of an absent key signals `KeyNotFound` (`KeyError`), and
since the raise happens before any mutation the map is unchanged (in the
model the error branch returns no new state at all). -/
theorem claim_C4 (hf : K → ℤ) (t : HashTableState K V) (k : K)
    (hwf : WF hf t) :
    (containsKey hf t k = true →
      ∃ t', delItem hf t k = .ok t' ∧ containsKey hf t' k = false ∧
        lenTable t' = lenTable t - 1) ∧
    (containsKey hf t k = false →
      delItem hf t k = .error .keyNotFound) := by
  constructor
  · intro hc
    rw [containsKey_of_WF hwf k] at hc
    rcases hfind : findNode t.keysList k with _ | p
    · rw [hfind] at hc
      cases hc
    · obtain ⟨t', hok, hwf', hkl, -, -, hsz⟩ := delItem_present hwf hfind
      refine ⟨t', hok, ?_, hsz⟩
      rw [containsKey_of_WF hwf' k, hkl,
        findNode_removeFirst_self hwf.nodupKeys]
      rfl
  · intro hc
    rw [containsKey_of_WF hwf k] at hc
    rcases hfind : findNode t.keysList k with _ | p
    · exact delItem_absent hwf hfind
    · rw [hfind] at hc
      cases hc

/-- **C5**: in every state reachable from a valid construction by a
(terminating) sequence of operations, `keys()` enumerates exactly the live
keys — a key is contained iff it occurs in the returned sequence — in the
order maintained by the spec-level insertion-ordered map (appended on first
insertion, position kept on update, removed on delete), and the sequence's
length equals `length()`. -/
theorem claim_C5 (hf : K → ℤ) (fuel : ℕ) (c : ℤ) (l : ℚ)
    (ops : List (Op K V)) (t0 t' : HashTableState K V)
    (os : List (Obs K V))
    (hinit : ThreadSafeHashTable.initTable c l = .ok t0)
    (hrun : runOpsTS hf fuel ops t0 = some (t', os)) :
    iterKeys t' = (specRun ops []).map Prod.fst ∧
    ((iterKeys t').length : ℤ) = lenTable t' ∧
    ∀ k, containsKey hf t' k = true ↔ k ∈ iterKeys t' := by
  have hwf0 : WF hf t0 := WF_initTable hf hinit
  obtain ⟨-, -, -, ht0⟩ := initTable_ok hinit
  obtain ⟨hwf', hkl⟩ := runWithSet_spec hf
    (fun u a b u' hw hr => (ts_contract hf fuel).2 u a b u' hw hr)
    ops t0 t' os hwf0 hrun
  have ht0k : t0.keysList = [] := by rw [ht0]; rfl
  refine ⟨?_, ?_, ?_⟩
  · rw [iterKeys, hkl, ht0k]
  · show ((t'.keysList.map Prod.fst).length : ℤ) = t'.size
    rw [List.length_map, hwf'.sizeEq]
  · intro k
    rw [containsKey_of_WF hwf' k, iterKeys]
    exact findNode_isSome

/-- **C8**: starting from any well-formed state in which `k` is absent
(in particular a fresh table, where `k` was never inserted, or a state
just after a successful `delete(k)`), a run containing no `set(k, ·)`
leaves `k` absent: `get(k, default)` returns the default — it catches the
`KeyError` by construction and never re-raises — `contains(k)` is false,
and the indexed get is the operation that signals `KeyNotFound`. -/
theorem claim_C8 (hf : K → ℤ) (fuel : ℕ) (ops : List (Op K V))
    (t t' : HashTableState K V) (os : List (Obs K V)) (k : K) (d : V)
    (hwf : WF hf t) (habs : containsKey hf t k = false)
    (hnoset : ∀ v : V, Op.set k v ∉ ops)
    (hrun : runOpsTS hf fuel ops t = some (t', os)) :
    getDefault hf t' k d = d ∧ containsKey hf t' k = false ∧
    getItem hf t' k = .error .keyNotFound := by
  rw [containsKey_of_WF hwf k] at habs
  have habs' : findNode t.keysList k = none := by
    rcases hfind : findNode t.keysList k with _ | p
    · rfl
    · rw [hfind] at habs
      cases habs
  obtain ⟨hwf', hkl⟩ := runWithSet_spec hf
    (fun u a b u' hw hr => (ts_contract hf fuel).2 u a b u' hw hr)
    ops t t' os hwf hrun
  have hnm : k ∉ (t'.keysList.map Prod.fst) := by
    rw [hkl]
    exact specRun_not_mem ops t.keysList (findNode_eq_none.mp habs') hnoset
  have hfind' : findNode t'.keysList k = none := findNode_eq_none.mpr hnm
  have hget : getItem hf t' k = .error .keyNotFound := by
    rw [getItem_of_WF hwf' k, hfind']
  refine ⟨?_, ?_, hget⟩
  · rw [getDefault, hget]
  · rw [containsKey_of_WF hwf' k, hfind']
    rfl

/-- **C1**: inserting any sequence of distinct keys from a valid
construction — in particular one that crosses one or more load-factor
boundaries and therefore resizes, as the witness below does — loses no
entry and duplicates none: afterwards `length()` equals the number of keys
inserted, every key maps to its value, and the iteration order is exactly
the insertion order (resizes rebuild the buckets but never touch the order
list). -/
theorem claim_C1 (hf : K → ℤ) (fuel : ℕ) (c : ℤ) (l : ℚ)
    (pairs : List (K × V)) (t0 t' : HashTableState K V)
    (os : List (Obs K V))
    (hinit : ThreadSafeHashTable.initTable c l = .ok t0)
    (hnd : (pairs.map Prod.fst).Nodup)
    (hrun : runOpsTS hf fuel (pairs.map fun p => Op.set p.1 p.2) t0 =
      some (t', os)) :
    lenTable t' = (pairs.length : ℤ) ∧
    (∀ p ∈ pairs, getItem hf t' p.1 = .ok p.2) ∧
    iterKeys t' = pairs.map Prod.fst := by
  have hwf0 : WF hf t0 := WF_initTable hf hinit
  obtain ⟨-, -, -, ht0⟩ := initTable_ok hinit
  obtain ⟨hwf', hkl⟩ := runWithSet_spec hf
    (fun u a b u' hw hr => (ts_contract hf fuel).2 u a b u' hw hr)
    _ t0 t' os hwf0 hrun
  have ht0k : t0.keysList = [] := by rw [ht0]; rfl
  have hkeys : t'.keysList = pairs := by
    rw [hkl, ht0k, specRun_sets pairs [] (by simpa using hnd)]
    rfl
  refine ⟨?_, ?_, ?_⟩
  · show t'.size = (pairs.length : ℤ)
    rw [hwf'.sizeEq, hkeys]
  · intro p hp
    rw [getItem_of_WF hwf' p.1, hkeys,
      findNode_of_mem_nodup hnd (by simpa using hp)]
  · rw [iterKeys, hkeys]

/-- **C10**: on a well-formed state, `set(k, v1); set(k, v2)` and the single
`set(k, v2)` produce observably identical maps — same `length()`, same
`keys()`/`values()`/`items()` sequences, same result for every lookup and
every membership test; moreover the second `set` (an update of a now-present
key) changes neither `length()` nor the key's position in iteration
order. -/
theorem claim_C10 (hf : K → ℤ) (f g : ℕ) (t t1 t2 t2' : HashTableState K V)
    (k : K) (v1 v2 : V) (hwf : WF hf t)
    (h1 : ThreadSafeHashTable.setItemFuel hf f t k v1 = some t1)
    (h2 : ThreadSafeHashTable.setItemFuel hf g t1 k v2 = some t2)
    (h3 : ThreadSafeHashTable.setItemFuel hf f t k v2 = some t2') :
    lenTable t2 = lenTable t2' ∧ iterKeys t2 = iterKeys t2' ∧
    valuesList t2 = valuesList t2' ∧ itemsList t2 = itemsList t2' ∧
    (∀ q, getItem hf t2 q = getItem hf t2' q) ∧
    (∀ q, containsKey hf t2 q = containsKey hf t2' q) ∧
    lenTable t2 = lenTable t1 ∧ iterKeys t2 = iterKeys t1 := by
  obtain ⟨hwf1, hkl1, -, -⟩ := (ts_contract hf f).2 t k v1 t1 hwf h1
  obtain ⟨hwf2, hkl2, -, -⟩ := (ts_contract hf g).2 t1 k v2 t2 hwf1 h2
  obtain ⟨hwf2', hkl2', -, -⟩ := (ts_contract hf f).2 t k v2 t2' hwf h3
  have hkeq : t2.keysList = t2'.keysList := by
    rw [hkl2, hkl1, hkl2', specSet_specSet]
  obtain ⟨k0, hfind1⟩ := findNode_specSet_self t.keysList k v1
  have hupd : t2.keysList = updateFirst t1.keysList k v2 := by
    rw [hkl2, specSet_of_found v2 (by rw [hkl1]; exact hfind1)]
  refine ⟨?_, ?_, ?_, ?_, ?_, ?_, ?_, ?_⟩
  · show t2.size = t2'.size
    rw [hwf2.sizeEq, hwf2'.sizeEq, hkeq]
  · rw [iterKeys, iterKeys, hkeq]
  · rw [valuesList, valuesList, hkeq]
  · rw [itemsList, itemsList, hkeq]
  · intro q
    rw [getItem_of_WF hwf2 q, getItem_of_WF hwf2' q, hkeq]
  · intro q
    rw [containsKey_of_WF hwf2 q, containsKey_of_WF hwf2' q, hkeq]
  · show t2.size = t1.size
    rw [hwf2.sizeEq, hwf1.sizeEq, hupd, length_updateFirst]
  · rw [iterKeys, iterKeys, hupd, map_fst_updateFirst]

/-- **C9**: from the same valid construction arguments, every terminating
single-threaded run of `set`/`get`/`delete`/`contains`/`length`/iteration
operations produces literally the same states, results and raised errors on
`ThreadSafeHashTable` and on `NonThreadSafeHashTable`: sequentially the two
classes differ only in constructor validation (irrelevant for valid
arguments) and in `_resize`'s load-factor re-check, which is invisible
because `_resize` is only ever invoked when the load factor is exceeded. -/
theorem claim_C9 (hf : K → ℤ) (fuel : ℕ) (c : ℤ) (l : ℚ)
    (ops : List (Op K V)) (t0 : HashTableState K V)
    (hinit : ThreadSafeHashTable.initTable c l = .ok t0) :
    runOpsTS hf fuel ops t0 =
      runOpsNTS hf fuel ops (NonThreadSafeHashTable.initTable c l) := by
  obtain ⟨-, -, -, ht0⟩ := initTable_ok hinit
  have hsame : NonThreadSafeHashTable.initTable c l = t0 := by
    rw [ht0]
    rfl
  rw [hsame, runOpsTS, runOpsNTS]
  exact runWithSet_congr hf (fun u a b => setItem_TS_eq_NTS hf fuel u a b)
    ops t0

/-- **C7**: construction of a `ThreadSafeHashTable` fails (with
`ValueError`, the spec's `InvalidConfiguration`) precisely when the initial
capacity is not positive or the load factor is outside `(0, 1]`; with valid
arguments it succeeds and the result is the empty map with exactly the given
capacity and threshold; the source's default arguments `8` and `0.75` are
valid.  (The arguments are typed: passing a non-integer capacity is a
`TypeError` of dynamic typing, outside this model.) -/
theorem claim_C7 :
    (∀ (c : ℤ) (l : ℚ),
      ThreadSafeHashTable.initTable (K := K) (V := V) c l =
        .error .invalidConfiguration ↔ (c ≤ 0 ∨ ¬(0 < l ∧ l ≤ 1))) ∧
    (∀ (c : ℤ) (l : ℚ) (t : HashTableState K V),
      ThreadSafeHashTable.initTable c l = .ok t →
      (t.capacity : ℤ) = c ∧ t.loadFactor = l ∧ lenTable t = 0 ∧
        iterKeys t = [] ∧ t.buckets = List.replicate c.toNat []) ∧
    ThreadSafeHashTable.initTable (K := K) (V := V) 8 (mkRat 3 4) =
      .ok (mkEmptyState 8 (mkRat 3 4)) := by
  refine ⟨?_, ?_, ?_⟩
  · intro c l
    unfold ThreadSafeHashTable.initTable
    split_ifs with h1 h2
    · exact iff_of_true rfl (Or.inl h1)
    · refine iff_of_false (fun hcontra => by cases hcontra) ?_
      intro hor
      exact hor.elim h1 fun hneg => hneg h2
    · exact iff_of_true rfl (Or.inr h2)
  · intro c l t h
    obtain ⟨hc, hl1, hl2, ht⟩ := initTable_ok h
    subst ht
    refine ⟨by simp [mkEmptyState]; omega, rfl, rfl, rfl, rfl⟩
  · rw [ThreadSafeHashTable.initTable, if_neg (by decide), if_neg (by decide)]
    rfl

/-- **C6, counterexample**: from the valid construction
`(initial_capacity = 1, load_factor = 1/4)`, the very first insert finds the
load factor exceeded (`1/1 > 1/4`), so by the claim the capacity should
double to `1 * 2 = 2`; the code instead leaves capacity `4`, because the
re-inserts inside `_resize` run `_check_resize` themselves and cascade into
a nested resize. -/
theorem claim_C6_counterexample :
    (ThreadSafeHashTable.setItemFuel (fun k : ℕ => (k : ℤ)) 10
        (mkEmptyState 1 (mkRat 1 4) : HashTableState ℕ ℕ) 0 0).map
      (fun u => u.capacity) = some 4 ∧
    loadExceeded ({ capacity := 1, loadFactor := mkRat 1 4,
                    buckets := [[(0, 0)]], size := 1,
                    keysList := [(0, 0)] } : HashTableState ℕ ℕ) = true ∧
    (4 : ℕ) ≠ 1 * 2 := by decide

/-- **C6, amended**: after a terminating insert of a new key, the capacity
is unchanged if the post-insert load factor does not exceed the threshold,
and is multiplied by `2^j` for some `j ≥ 1` — exactly doubled in the common
case, but possibly more when the re-inserts inside `_resize` cascade — if it
does; a delete never changes the capacity; and a `_resize` whose re-checked
load factor no longer exceeds the threshold aborts, leaving the state (its
capacity and all entries) unchanged. -/
theorem claim_C6_amended (hf : K → ℤ) :
    (∀ (fuel : ℕ) (t t' : HashTableState K V) (k : K) (v : V),
      WF hf t → containsKey hf t k = false →
      ThreadSafeHashTable.setItemFuel hf fuel t k v = some t' →
      (loadExceeded ({ t with size := t.size + 1 } : HashTableState K V) =
          false → t'.capacity = t.capacity) ∧
      (loadExceeded ({ t with size := t.size + 1 } : HashTableState K V) =
          true → ∃ j : ℕ, 1 ≤ j ∧ t'.capacity = t.capacity * 2 ^ j)) ∧
    (∀ (t t' : HashTableState K V) (k : K),
      delItem hf t k = .ok t' → t'.capacity = t.capacity) ∧
    (∀ (fuel : ℕ) (t : HashTableState K V) (c : ℕ),
      loadExceeded t = false →
      ThreadSafeHashTable.resizeFuel hf (fuel + 1) t c = some t) := by
  refine ⟨?_, ?_, ?_⟩
  · intro fuel t t' k v hwf hfreshC hset
    rw [containsKey_of_WF hwf k] at hfreshC
    have hn : findNode t.keysList k = none := by
      rcases hfind : findNode t.keysList k with _ | p
      · rfl
      · rw [hfind] at hfreshC
        cases hfreshC
    unfold ThreadSafeHashTable.setItemFuel setItemCore at hset
    simp only [] at hset
    rw [findNode_bucket_of_WF hwf k, hn] at hset
    simp only [] at hset
    split at hset
    · rename_i hle
      constructor
      · intro hfalse
        exact absurd
          ((show loadExceeded ({ t with size := t.size + 1 } :
              HashTableState K V) = true from hle).symm.trans hfalse)
          (by decide)
      · intro _
        obtain ⟨-, -, -, j, hcap⟩ := (ts_contract hf fuel).1 _ _ t'
          (WF_append hwf v hn) (by have := hwf.capPos; omega) hle hset
        refine ⟨j + 1, by omega, ?_⟩
        rw [hcap, pow_succ]
        ring
    · rename_i hle
      injection hset with hset'
      constructor
      · intro _
        rw [← hset']
      · intro htrue
        exact absurd (show loadExceeded ({ t with size := t.size + 1 } :
            HashTableState K V) = true from htrue) hle
  · intro t t' k h
    unfold delItem at h
    simp only [] at h
    split at h
    · cases h
    · injection h with h'
      rw [← h']
  · intro fuel t c h
    rw [ThreadSafeHashTable.resizeFuel, if_neg (by simp [h])]

/-- **C2, counterexample**: on a fresh table, `set(0, 0)` acquires the
bucket lock and only then, while holding it, the table-wide lock — its
acquisition trace is `[bucket 0, global]`, which violates the claimed
"table-wide lock before any bucket lock whenever both are needed by the
same call" discipline (`tableWideBeforeBucket` is false on it). -/
theorem claim_C2_counterexample :
    (ThreadSafeHashTable.setItemAcqFuel (fun k : ℕ => (k : ℤ)) 5
        (mkEmptyState 8 (mkRat 3 4) : HashTableState ℕ ℕ) 0 0).map
      Prod.snd = some [.bucket 0, .global] ∧
    tableWideBeforeBucket [.bucket 0, .global] = false := by decide

/-- **C2, amended**: the code's actual acquisition discipline is the
inverse of the claimed one on the write paths: `__setitem__` always
acquires the key's bucket lock first and the table-wide lock second (on
both its branches), and `__delitem__` acquires the bucket lock first and
takes the table-wide lock only when the key is present; only `_resize`
follows table-wide-before-bucket; `get`/`contains` touch only the bucket
lock and `len` only the table-wide lock.  (Deadlock-freedom itself is a
true concurrency property outside this sequential embedding; with the
inverted order it is in any case not guaranteed by lock ordering.) -/
theorem claim_C2_amended (hf : K → ℤ) :
    (∀ (fuel : ℕ) (t t' : HashTableState K V) (k : K) (v : V)
      (tr : List LockAcq),
      ThreadSafeHashTable.setItemAcqFuel hf fuel t k v = some (t', tr) →
      tr.take 2 = [.bucket (bucketIdx hf t.capacity k), .global]) ∧
    (∀ (t : HashTableState K V) (k : K),
      delItemAcqTrace hf t k = [.bucket (bucketIdx hf t.capacity k)] ∨
      delItemAcqTrace hf t k =
        [.bucket (bucketIdx hf t.capacity k), .global]) ∧
    (∀ (fuel : ℕ) (t t' : HashTableState K V) (c : ℕ) (tr : List LockAcq),
      ThreadSafeHashTable.resizeAcqFuel hf fuel t c = some (t', tr) →
      tr.head? = some .global) ∧
    (∀ (t : HashTableState K V) (k : K),
      getItemAcqTrace hf t k = [.bucket (bucketIdx hf t.capacity k)] ∧
      containsAcqTrace hf t k = [.bucket (bucketIdx hf t.capacity k)]) ∧
    lenAcqTrace = [.global] :=
  ⟨fun fuel t t' k v tr h => setItemAcq_bucket_first hf fuel t t' k v tr h,
    fun t k => delItemAcq_spec hf t k,
    fun fuel t t' c tr h => resizeAcq_global_first hf fuel t t' c tr h,
    fun _ _ => ⟨rfl, rfl⟩, rfl⟩

/-- Witness for the amended C2 at concrete inputs: a fresh-key `set` produces
the trace `[bucket 0, global]` (bucket first), a present-key delete produces
`[bucket 0, global]`, and a concrete cascading resize's trace starts with
the table-wide lock. -/
theorem claim_C2_amended_witness :
    [LockAcq.bucket 0, LockAcq.global].take 2 =
      [LockAcq.bucket (bucketIdx (fun k : ℕ => (k : ℤ)) 8 0),
        LockAcq.global] ∧
    (delItemAcqTrace (fun k : ℕ => (k : ℤ))
        ({ capacity := 2, loadFactor := mkRat 1 2,
           buckets := [[(0, 5)], []], size := 1,
           keysList := [(0, 5)] } : HashTableState ℕ ℕ) 0 =
      [.bucket (bucketIdx (fun k : ℕ => (k : ℤ)) 2 0)] ∨
    delItemAcqTrace (fun k : ℕ => (k : ℤ))
        ({ capacity := 2, loadFactor := mkRat 1 2,
           buckets := [[(0, 5)], []], size := 1,
           keysList := [(0, 5)] } : HashTableState ℕ ℕ) 0 =
      [.bucket (bucketIdx (fun k : ℕ => (k : ℤ)) 2 0), .global]) ∧
    ([LockAcq.global, .bucket 0, .bucket 0, .global, .global, .bucket 0,
      .bucket 1, .bucket 0, .global] : List LockAcq).head? =
      some .global := by
  have hset : ThreadSafeHashTable.setItemAcqFuel (fun k : ℕ => (k : ℤ)) 5
      (mkEmptyState 8 (mkRat 3 4) : HashTableState ℕ ℕ) 0 0 =
      some ({ capacity := 8, loadFactor := mkRat 3 4,
              buckets := [[(0, 0)], [], [], [], [], [], [], []],
              size := 1, keysList := [(0, 0)] },
        [.bucket 0, .global]) := by decide
  have hres : ThreadSafeHashTable.resizeAcqFuel (fun k : ℕ => (k : ℤ)) 5
      ({ capacity := 1, loadFactor := mkRat 1 4, buckets := [[(0, 0)]],
         size := 1, keysList := [(0, 0)] } : HashTableState ℕ ℕ) 2 =
      some ({ capacity := 4, loadFactor := mkRat 1 4,
              buckets := [[(0, 0)], [], [], []], size := 1,
              keysList := [(0, 0)] },
        [.global, .bucket 0, .bucket 0, .global, .global, .bucket 0,
          .bucket 1, .bucket 0, .global]) := by decide
  exact ⟨(claim_C2_amended (fun k : ℕ => (k : ℤ))).1 5 _ _ 0 0 _ hset,
    (claim_C2_amended (fun k : ℕ => (k : ℤ))).2.1 _ 0,
    (claim_C2_amended (fun k : ℕ => (k : ℤ))).2.2.1 5 _ _ 2 _ hres⟩

/-- Witness for C1 at a concrete boundary-crossing run: from a valid
construction with capacity 2 and load factor 1/2, inserting the three
distinct keys 0, 1, 2 crosses two load-factor boundaries (the capacity ends
at 8), yet `length()` is 3 and iteration returns `[0, 1, 2]`. -/
theorem claim_C1_witness :
    (runOpsTS (fun k : ℕ => (k : ℤ)) 10
        ([((0 : ℕ), (10 : ℕ)), (1, 11), (2, 12)].map fun p => Op.set p.1 p.2)
        (mkEmptyState 2 (mkRat 1 2))).map
      (fun r => (lenTable r.1, iterKeys r.1, r.1.capacity)) =
      some (3, [0, 1, 2], 8) := by
  have hrun : runOpsTS (fun k : ℕ => (k : ℤ)) 10
      ([((0 : ℕ), (10 : ℕ)), (1, 11), (2, 12)].map fun p => Op.set p.1 p.2)
      (mkEmptyState 2 (mkRat 1 2)) =
      some ({ capacity := 8, loadFactor := mkRat 1 2,
              buckets := [[(0, 10)], [(1, 11)], [(2, 12)], [], [], [], [],
                []],
              size := 3, keysList := [(0, 10), (1, 11), (2, 12)] },
        [Obs.ret, Obs.ret, Obs.ret]) := by decide
  obtain ⟨hlen, -, hkeys⟩ := claim_C1 (fun k : ℕ => (k : ℤ)) 10 2 (mkRat 1 2)
    [(0, 10), (1, 11), (2, 12)] _ _ _ rfl (by decide) hrun
  rw [hrun, Option.map_some', hlen, hkeys]
  rfl

/-- Witness for C3 at a concrete input: `set(7, 42)` then `get(7)` on a
fresh 2-bucket table returns 42 (indexed get and defaulted get). -/
theorem claim_C3_witness :
    (ThreadSafeHashTable.setItemFuel (fun k : ℕ => (k : ℤ)) 5
        (mkEmptyState 2 (mkRat 1 2) : HashTableState ℕ ℕ) 7 42).map
      (fun t' => (getItem (fun k : ℕ => (k : ℤ)) t' 7,
        getDefault (fun k : ℕ => (k : ℤ)) t' 7 0)) =
      some (.ok 42, 42) := by
  have hset : ThreadSafeHashTable.setItemFuel (fun k : ℕ => (k : ℤ)) 5
      (mkEmptyState 2 (mkRat 1 2) : HashTableState ℕ ℕ) 7 42 =
      some { capacity := 2, loadFactor := mkRat 1 2,
             buckets := [[], [(7, 42)]], size := 1,
             keysList := [(7, 42)] } := by decide
  obtain ⟨h1, h2⟩ := claim_C3 (fun k : ℕ => (k : ℤ)) 5 _ _ 7 42 (by decide)
    hset
  rw [hset, Option.map_some', h1, h2 0]

/-- Witness for C4 at a concrete input: deleting the present key 0 from a
one-entry table succeeds, after which `contains(0)` is false and `length()`
drops from 1 to 0; deleting the absent key 1 raises `KeyNotFound`. -/
theorem claim_C4_witness :
    (delItem (fun k : ℕ => (k : ℤ))
        ({ capacity := 2, loadFactor := mkRat 1 2, buckets := [[(0, 5)], []],
           size := 1, keysList := [(0, 5)] } : HashTableState ℕ ℕ)
        0).toOption.map
      (fun t' => (containsKey (fun k : ℕ => (k : ℤ)) t' 0, lenTable t')) =
      some (false, 0) ∧
    delItem (fun k : ℕ => (k : ℤ))
        ({ capacity := 2, loadFactor := mkRat 1 2, buckets := [[(0, 5)], []],
           size := 1, keysList := [(0, 5)] } : HashTableState ℕ ℕ) 1 =
      .error .keyNotFound := by
  constructor
  · obtain ⟨t', hok, hcf, hlen⟩ :=
      (claim_C4 (fun k : ℕ => (k : ℤ))
        ({ capacity := 2, loadFactor := mkRat 1 2, buckets := [[(0, 5)], []],
           size := 1, keysList := [(0, 5)] } : HashTableState ℕ ℕ) 0
        (by decide)).1 (by decide)
    rw [hok]
    simp only [Except.toOption, Option.map_some']
    rw [hcf, hlen]
    rfl
  · exact (claim_C4 (fun k : ℕ => (k : ℤ))
      ({ capacity := 2, loadFactor := mkRat 1 2, buckets := [[(0, 5)], []],
         size := 1, keysList := [(0, 5)] } : HashTableState ℕ ℕ) 1
      (by decide)).2 (by decide)

/-- Witness for C5 at a concrete run with an interleaved delete: after
`set 0 5; set 1 6; del 0; set 2 7` from a fresh default-capacity table,
`keys()` is `[1, 2]`, its length equals `length() = 2`, and key 1 is
contained. -/
theorem claim_C5_witness :
    (runOpsTS (fun k : ℕ => (k : ℤ)) 5
        [Op.set (0 : ℕ) (5 : ℕ), Op.set 1 6, Op.del 0, Op.set 2 7]
        (mkEmptyState 8 (mkRat 3 4))).map
      (fun r => (iterKeys r.1, lenTable r.1,
        containsKey (fun k : ℕ => (k : ℤ)) r.1 1)) =
      some ([1, 2], 2, true) := by
  have hrun : runOpsTS (fun k : ℕ => (k : ℤ)) 5
      [Op.set (0 : ℕ) (5 : ℕ), Op.set 1 6, Op.del 0, Op.set 2 7]
      (mkEmptyState 8 (mkRat 3 4)) =
      some ({ capacity := 8, loadFactor := mkRat 3 4,
              buckets := [[], [(1, 6)], [(2, 7)], [], [], [], [], []],
              size := 2, keysList := [(1, 6), (2, 7)] },
        [Obs.ret, Obs.ret, Obs.ret, Obs.ret]) := by decide
  obtain ⟨h1, h2, h3⟩ := claim_C5 (fun k : ℕ => (k : ℤ)) 5 8 (mkRat 3 4)
    [Op.set (0 : ℕ) (5 : ℕ), Op.set 1 6, Op.del 0, Op.set 2 7] _ _ _ rfl hrun
  have hk : iterKeys ({ capacity := 8, loadFactor := mkRat 3 4,
                        buckets := [[], [(1, 6)], [(2, 7)], [], [], [], [],
                          []],
                        size := 2,
                        keysList := [(1, 6), (2, 7)] } : HashTableState ℕ ℕ) =
      [1, 2] := h1.trans (by decide)
  have hlen : lenTable ({ capacity := 8, loadFactor := mkRat 3 4,
                          buckets := [[], [(1, 6)], [(2, 7)], [], [], [], [],
                            []],
                          size := 2,
                          keysList := [(1, 6), (2, 7)] } :
      HashTableState ℕ ℕ) = 2 := by
    rw [← h2, hk]
    rfl
  have hc1 : containsKey (fun k : ℕ => (k : ℤ))
      ({ capacity := 8, loadFactor := mkRat 3 4,
         buckets := [[], [(1, 6)], [(2, 7)], [], [], [], [], []],
         size := 2, keysList := [(1, 6), (2, 7)] } : HashTableState ℕ ℕ)
      1 = true := (h3 1).mpr (by rw [hk]; decide)
  rw [hrun, Option.map_some', hk, hlen, hc1]

/-- Witness for C6 (amended) at concrete inputs: an insert that does not
cross the threshold keeps capacity 8; a delete keeps capacity 2; an aborting
resize returns the state unchanged. -/
theorem claim_C6_witness :
    (ThreadSafeHashTable.setItemFuel (fun k : ℕ => (k : ℤ)) 5
        (mkEmptyState 8 (mkRat 3 4) : HashTableState ℕ ℕ) 0 0).map
      (fun u => u.capacity) = some 8 ∧
    (delItem (fun k : ℕ => (k : ℤ))
        ({ capacity := 2, loadFactor := mkRat 1 2, buckets := [[(0, 5)], []],
           size := 1, keysList := [(0, 5)] } : HashTableState ℕ ℕ)
        0).toOption.map (fun u => u.capacity) = some 2 ∧
    ThreadSafeHashTable.resizeFuel (fun k : ℕ => (k : ℤ)) 3
        (mkEmptyState 8 (mkRat 3 4) : HashTableState ℕ ℕ) 16 =
      some (mkEmptyState 8 (mkRat 3 4)) := by
  refine ⟨?_, ?_, ?_⟩
  · have hset : ThreadSafeHashTable.setItemFuel (fun k : ℕ => (k : ℤ)) 5
        (mkEmptyState 8 (mkRat 3 4) : HashTableState ℕ ℕ) 0 0 =
        some { capacity := 8, loadFactor := mkRat 3 4,
               buckets := [[(0, 0)], [], [], [], [], [], [], []],
               size := 1, keysList := [(0, 0)] } := by decide
    have h := ((claim_C6_amended (fun k : ℕ => (k : ℤ))).1 5 _ _ 0 0
      (by decide) (by decide) hset).1 (by decide)
    rw [hset, Option.map_some', h]
    rfl
  · have hdel : delItem (fun k : ℕ => (k : ℤ))
        ({ capacity := 2, loadFactor := mkRat 1 2, buckets := [[(0, 5)], []],
           size := 1, keysList := [(0, 5)] } : HashTableState ℕ ℕ) 0 =
        .ok { capacity := 2, loadFactor := mkRat 1 2, buckets := [[], []],
              size := 0, keysList := [] } := rfl
    have h := (claim_C6_amended (fun k : ℕ => (k : ℤ))).2.1 _ _ 0 hdel
    rw [hdel]
    simp only [Except.toOption, Option.map_some']
  · exact (claim_C6_amended (fun k : ℕ => (k : ℤ))).2.2 2
      (mkEmptyState 8 (mkRat 3 4)) 16 (by decide)

/-- Witness for C7 at concrete inputs: a negative capacity is rejected with
`InvalidConfiguration`; construction with capacity 4 and load factor 1/2
succeeds and yields the empty map with capacity 4. -/
theorem claim_C7_witness :
    ThreadSafeHashTable.initTable (K := ℕ) (V := ℕ) (-3) (mkRat 3 4) =
      .error .invalidConfiguration ∧
    ((mkEmptyState 4 (mkRat 1 2) : HashTableState ℕ ℕ).capacity : ℤ) = 4 ∧
    lenTable (mkEmptyState 4 (mkRat 1 2) : HashTableState ℕ ℕ) = 0 ∧
    iterKeys (mkEmptyState 4 (mkRat 1 2) : HashTableState ℕ ℕ) = [] := by
  obtain ⟨hc, -, hlen, hit, -⟩ :=
    (claim_C7 (K := ℕ) (V := ℕ)).2.1 4 (mkRat 1 2)
      (mkEmptyState 4 (mkRat 1 2)) rfl
  exact ⟨((claim_C7 (K := ℕ) (V := ℕ)).1 (-3) (mkRat 3 4)).mpr
    (Or.inl (by decide)), hc, hlen, hit⟩

/-- Witness for C8 at a concrete run: key 3 was never inserted; after
`set 1 6; del 0` (which also triggers a resize) `get(3, 99)` returns 99,
`contains(3)` is false, and the indexed get raises `KeyNotFound`. -/
theorem claim_C8_witness :
    (runOpsTS (fun k : ℕ => (k : ℤ)) 5 [Op.set (1 : ℕ) (6 : ℕ), Op.del 0]
        ({ capacity := 2, loadFactor := mkRat 1 2, buckets := [[(0, 5)], []],
           size := 1, keysList := [(0, 5)] } : HashTableState ℕ ℕ)).map
      (fun r => (getDefault (fun k : ℕ => (k : ℤ)) r.1 3 99,
        containsKey (fun k : ℕ => (k : ℤ)) r.1 3,
        getItem (fun k : ℕ => (k : ℤ)) r.1 3)) =
      some (99, false, .error .keyNotFound) := by
  have hrun : runOpsTS (fun k : ℕ => (k : ℤ)) 5
      [Op.set (1 : ℕ) (6 : ℕ), Op.del 0]
      ({ capacity := 2, loadFactor := mkRat 1 2, buckets := [[(0, 5)], []],
         size := 1, keysList := [(0, 5)] } : HashTableState ℕ ℕ) =
      some ({ capacity := 4, loadFactor := mkRat 1 2,
              buckets := [[], [(1, 6)], [], []], size := 1,
              keysList := [(1, 6)] },
        [Obs.ret, Obs.ret]) := by decide
  obtain ⟨h1, h2, h3⟩ := claim_C8 (fun k : ℕ => (k : ℤ)) 5
    [Op.set (1 : ℕ) (6 : ℕ), Op.del 0] _ _ _ 3 99 (by decide) (by decide)
    (by intro v; simp) hrun
  rw [hrun, Option.map_some', h1, h2, h3]

/-- Witness for C9 at a concrete run exercising set, indexed get, delete
and length. -/
theorem claim_C9_witness :
    runOpsTS (fun k : ℕ => (k : ℤ)) 5
        [Op.set (0 : ℕ) (1 : ℕ), Op.getIdx 0, Op.del 0, Op.lenOp]
        (mkEmptyState 4 (mkRat 3 4)) =
      runOpsNTS (fun k : ℕ => (k : ℤ)) 5
        [Op.set (0 : ℕ) (1 : ℕ), Op.getIdx 0, Op.del 0, Op.lenOp]
        (NonThreadSafeHashTable.initTable 4 (mkRat 3 4)) :=
  claim_C9 (fun k : ℕ => (k : ℤ)) 5 4 (mkRat 3 4)
    [Op.set (0 : ℕ) (1 : ℕ), Op.getIdx 0, Op.del 0, Op.lenOp]
    (mkEmptyState 4 (mkRat 3 4)) rfl

/-- Witness for C10 at a concrete input: `set(0, 5); set(0, 9)` and the
single `set(0, 9)` yield the same length and the same `items()`
sequence. -/
theorem claim_C10_witness :
    ((ThreadSafeHashTable.setItemFuel (fun k : ℕ => (k : ℤ)) 5
        (mkEmptyState 2 (mkRat 1 2) : HashTableState ℕ ℕ) 0 5).bind
      (fun t1 => ThreadSafeHashTable.setItemFuel (fun k : ℕ => (k : ℤ)) 5
        t1 0 9)).map (fun t2 => (lenTable t2, itemsList t2)) =
    (ThreadSafeHashTable.setItemFuel (fun k : ℕ => (k : ℤ)) 5
        (mkEmptyState 2 (mkRat 1 2) : HashTableState ℕ ℕ) 0 9).map
      (fun t2 => (lenTable t2, itemsList t2)) := by
  have hA : ThreadSafeHashTable.setItemFuel (fun k : ℕ => (k : ℤ)) 5
      (mkEmptyState 2 (mkRat 1 2) : HashTableState ℕ ℕ) 0 5 =
      some { capacity := 2, loadFactor := mkRat 1 2,
             buckets := [[(0, 5)], []], size := 1,
             keysList := [(0, 5)] } := by decide
  have hB : ThreadSafeHashTable.setItemFuel (fun k : ℕ => (k : ℤ)) 5
      ({ capacity := 2, loadFactor := mkRat 1 2, buckets := [[(0, 5)], []],
         size := 1, keysList := [(0, 5)] } : HashTableState ℕ ℕ) 0 9 =
      some { capacity := 2, loadFactor := mkRat 1 2,
             buckets := [[(0, 9)], []], size := 1,
             keysList := [(0, 9)] } := by decide
  have hC : ThreadSafeHashTable.setItemFuel (fun k : ℕ => (k : ℤ)) 5
      (mkEmptyState 2 (mkRat 1 2) : HashTableState ℕ ℕ) 0 9 =
      some { capacity := 2, loadFactor := mkRat 1 2,
             buckets := [[(0, 9)], []], size := 1,
             keysList := [(0, 9)] } := by decide
  obtain ⟨-, -, -, -, -, -, -, -⟩ := claim_C10 (fun k : ℕ => (k : ℤ))
    5 5 _ _ _ _ 0 5 9 (by decide) hA hB hC
  rw [hA, hC]
  simp only [Option.some_bind]
  rw [hB]
